import Mathlib

/-!
Verification of the Hyper-ZiLLA analysis core.

This file is a shallow embedding, in Lean 4, of the analysis orchestration
and AI-enhancement core of the Hyper-ZiLLA repository:

* `codezilla::analysis::AIEngine` from
  `src/analysis/ai/ai_engine.cpp` / `ai_engine.h` (configuration
  validation, input sanitisation, cache key generation, the TTL cache with
  oldest-insertion eviction, retry with exponential backoff, metrics), and
* `CodezillA::AnalysisManager` from `src/analysis/analysis_manager.cpp`
  (serial and parallel directory scans, per-file error isolation,
  cooperative cancellation), and
* `CodezillA::CppAnalyzer` from
  `src/analysis/languages/cpp_analyzer.h` (per-line scanning passes).

Modelling conventions:

* machine integers are modelled as `Nat` / `Int` (no overflow is relevant
  to the properties considered: all counters are far from 2^64);
* wall-clock timestamps are explicit `Nat` parameters (seconds), and
  per-call elapsed durations are explicit `Nat` parameters (milliseconds),
  threaded through the functions exactly where the C++ code reads the
  clock;
* the outcome of one invocation of the external Python service process is
  an oracle `Nat → AIAnalysisResult` giving the result of each successive
  attempt inside one `analyzeCode` call (the subprocess is outside the
  program, so its replies are free inputs of the model);
* `std::unordered_map<std::string, CacheEntry>` is modelled as an
  association list with unique keys; `std::min_element` over the map is
  modelled as a left fold returning the first minimal element in list
  order (the theorems about eviction only ever use it where the minimum
  is unique, so the unspecified iteration order of the hash map cannot
  affect the stated results);
* fallible C++ code (throwing / catching) is modelled with `Except`.
-/

namespace HyperZilla

/-! ## AI engine data model (`ai_engine.h`) -/

/-- `AIEngineConfig` from `ai_engine.h` lines 19-35.  `timeout_seconds`
and `max_retries` are C++ `int`, modelled as `Int` so that the
non-negativity checks of `validate` are meaningful. -/
structure AIEngineConfig where
  python_executable : String := "python3"
  ai_service_path : String := "src/analysis/ai/ai_service.py"
  model_type : String := "advanced"
  timeout_seconds : Int := 30
  max_retries : Int := 3
  enable_caching : Bool := true
  enable_learning : Bool := true
  cache_max_size : Nat := 1000
deriving DecidableEq

/-- `AIEngineConfig::validate` (`ai_engine.h` lines 29-34). -/
def AIEngineConfig.validate (c : AIEngineConfig) : Bool :=
  !(c.python_executable == "") && !(c.ai_service_path == "") &&
    decide (c.timeout_seconds > 0) && decide (c.max_retries ≥ 0)

/-- `AIAnalysisResult` from `ai_engine.h` lines 40-51.  The C++ `double`
confidence score is modelled as `Rat`; no arithmetic is ever performed on
it by the embedded code, it is only stored and copied.
`processing_time` is milliseconds. -/
structure AIAnalysisResult where
  success : Bool := false
  analysis : String := ""
  error_message : String := ""
  confidence_score : Rat := 0
  severity_level : Int := 0
  recommendations : List String := []
  processing_time : Nat := 0
  from_cache : Bool := false
deriving DecidableEq

/-- `CacheEntry` from `ai_engine.h` lines 56-66.  `timestamp` is seconds
since the epoch. -/
structure CacheEntry where
  key : String
  result : AIAnalysisResult
  timestamp : Nat
  access_count : Nat
deriving DecidableEq

/-- `CacheEntry::isExpired` (`ai_engine.h` lines 62-65): the entry is
expired when `now - timestamp > ttl`.  With the C++ signed duration a
clock that moved backwards gives a negative difference, hence not
expired; truncated `Nat` subtraction gives `0`, matching that. -/
def CacheEntry.isExpired (e : CacheEntry) (ttl : Nat) (now : Nat) : Bool :=
  decide (now - e.timestamp > ttl)

/-- The metrics block of `AIEngine` (`ai_engine.h` lines 297-305).
Durations in milliseconds. -/
structure Metrics where
  total_requests : Nat := 0
  successful_requests : Nat := 0
  failed_requests : Nat := 0
  cache_hits : Nat := 0
  cache_misses : Nat := 0
  total_processing_time : Nat := 0
  avg_processing_time : Nat := 0
deriving DecidableEq

/-- The mutable state of one `AIEngine` instance: its configuration, the
analysis cache and the metrics block.  The cache
`std::unordered_map<std::string, CacheEntry>` is an association list with
unique keys. -/
structure EngineState where
  config : AIEngineConfig
  analysis_cache : List CacheEntry
  metrics : Metrics
deriving DecidableEq

/-- A freshly constructed engine: empty cache, zeroed metrics
(`ai_engine.cpp` constructor, lines 51-75). -/
def initState (cfg : AIEngineConfig) : EngineState :=
  { config := cfg, analysis_cache := [], metrics := {} }

/-- `CACHE_TTL` (`ai_engine.h` line 312): one hour, in seconds. -/
def CACHE_TTL : Nat := 3600

/-! ## Retry with exponential backoff (`ai_engine.cpp` lines 295-324)

`executeWithRetry` calls `operation()` up to `max_retries + 1` times.
After each failed attempt except the last it sleeps `delay_ms`
milliseconds and doubles `delay_ms` (initially 100).  The model returns
the final result together with the list of the delays slept, in order.
The `operation` oracle gives each attempt's outcome. -/

/-- The loop body of `AIEngine::executeWithRetry`.  The third argument is
the number of attempts still allowed (`max_retries + 1 - attempt` in the
C++ loop); the dead `0` branch is unreachable from `executeWithRetry`. -/
def retryLoop (op : Nat → AIAnalysisResult) : Nat → Nat → Nat → AIAnalysisResult × List Nat
  | _, _, 0 => ({ success := false }, [])
  | attempt, _, 1 => (op attempt, [])
  | attempt, delay, n + 2 =>
    let res := op attempt
    if res.success then (res, [])
    else
      let rest := retryLoop op (attempt + 1) (delay * 2) (n + 1)
      (rest.1, delay :: rest.2)

/-- `AIEngine::executeWithRetry` (`ai_engine.cpp` lines 295-324): first
attempt is attempt `0`, first backoff delay is 100 ms. -/
def executeWithRetry (op : Nat → AIAnalysisResult) (maxRetries : Nat) :
    AIAnalysisResult × List Nat :=
  retryLoop op 0 100 (maxRetries + 1)

/-! ## Retry lemmas -/

/-- If the first `r` attempts starting at `attempt` fail and attempt
`attempt + r` succeeds, the loop returns that success and sleeps the
geometric delays `delay, 2*delay, ...`, one per failed attempt. -/
theorem retryLoop_eventually_succeeds (op : Nat → AIAnalysisResult) :
    ∀ (r attempt delay s : Nat),
      (∀ i, i < r → (op (attempt + i)).success = false) →
      (op (attempt + r)).success = true →
      retryLoop op attempt delay (r + 1 + s) =
        (op (attempt + r), (List.range r).map fun i => delay * 2 ^ i) := by
  intro r
  induction r with
  | zero =>
    intro attempt delay s _ hsucc
    rw [Nat.add_zero] at hsucc
    have hn : 0 + 1 + s = s + 1 := by omega
    rw [hn]
    cases s with
    | zero => simp [retryLoop]
    | succ s' =>
      show retryLoop op attempt delay (s' + 2) = _
      simp [retryLoop, hsucc]
  | succ r ih =>
    intro attempt delay s hfail hsucc
    have h0 : (op attempt).success = false := by
      have := hfail 0 (Nat.succ_pos r)
      simpa using this
    have hstep : r + 1 + 1 + s = (r + 1 + s) + 1 := by omega
    have hform : retryLoop op attempt delay (r + 1 + 1 + s) =
        retryLoop op attempt delay ((r + 1 + s) + 1) := by rw [hstep]
    have hsplit : (r + 1 + s) + 1 = (r + s) + 2 := by omega
    rw [hform, hsplit]
    simp only [retryLoop, h0]
    simp only [Bool.false_eq_true, if_false]
    have hfail' : ∀ i, i < r → (op (attempt + 1 + i)).success = false := by
      intro i hi
      have := hfail (i + 1) (by omega)
      have harr : attempt + (i + 1) = attempt + 1 + i := by omega
      rwa [harr] at this
    have hsucc' : (op (attempt + 1 + r)).success = true := by
      have harr : attempt + (r + 1) = attempt + 1 + r := by omega
      rwa [harr] at hsucc
    have hrs : r + s + 1 = r + 1 + s := by omega
    rw [hrs]
    rw [ih (attempt + 1) (delay * 2) s hfail' hsucc']
    simp only [Prod.mk.injEq]
    constructor
    · congr 1
      omega
    · rw [List.range_succ_eq_map]
      simp only [List.map_cons, List.map_map, pow_zero, mul_one]
      refine congrArg (List.cons delay) ?_
      apply List.map_congr_left
      intro i _
      simp only [Function.comp_apply]
      rw [pow_succ]
      ring

/-- If every allowed attempt fails, the loop returns the last attempt's
result. -/
theorem retryLoop_all_fail (op : Nat → AIAnalysisResult) :
    ∀ (r attempt delay : Nat),
      (∀ i, i ≤ r → (op (attempt + i)).success = false) →
      (retryLoop op attempt delay (r + 1)).1 = op (attempt + r) := by
  intro r
  induction r with
  | zero => intro attempt delay _; simp [retryLoop]
  | succ r ih =>
    intro attempt delay hfail
    have h0 : (op attempt).success = false := by
      have := hfail 0 (Nat.zero_le _)
      simpa using this
    show (retryLoop op attempt delay (r + 2)).1 = _
    simp only [retryLoop, h0]
    simp only [Bool.false_eq_true, if_false]
    have hfail' : ∀ i, i ≤ r → (op (attempt + 1 + i)).success = false := by
      intro i hi
      have := hfail (i + 1) (by omega)
      have harr : attempt + (i + 1) = attempt + 1 + i := by omega
      rwa [harr] at this
    have := ih (attempt + 1) (delay * 2) hfail'
    rw [this]
    congr 1
    omega

/-! ## Input sanitisation and cache keys -/

/-- `AIEngine::sanitizeInput` (`ai_engine.cpp` lines 566-580): strip null
bytes, truncate to 1 MiB.  The C++ truncation is by bytes; the inputs
this development evaluates on are ASCII, for which characters and bytes
coincide. -/
def sanitizeInput (s : String) : String :=
  String.mk ((s.toList.filter fun c => c ≠ Char.ofNat 0).take (1024 * 1024))

/-- `AIEngine::generateCacheKey` (`ai_engine.cpp` lines 355-373) hashes
`code ++ "|" ++ language ++ "|" ++ file_path ++ "|" ++ model_type` with
SHA-256 and renders the digest as hex.  The digest is modelled as the
preimage string itself: every theorem in this file uses only that the key
is a deterministic function of this combined string, never any property
of the hex encoding. -/
def generateCacheKey (code language file_path model_type : String) : String :=
  code ++ "|" ++ language ++ "|" ++ file_path ++ "|" ++ model_type

/-! ## Cache operations (`ai_engine.cpp` lines 376-427, 460-465) -/

/-- Erase the (first) entry with the given key; `analysis_cache_.erase(it)`
on a map with unique keys. -/
def eraseKey : List CacheEntry → String → List CacheEntry
  | [], _ => []
  | e :: es, k => if e.key == k then es else e :: eraseKey es k

/-- Replace the (first) entry with the given key in place. -/
def replaceEntry : List CacheEntry → CacheEntry → List CacheEntry
  | [], _ => []
  | e :: es, e' => if e.key == e'.key then e' :: es else e :: replaceEntry es e'

/-- `analysis_cache_[key] = entry`: assign through `operator[]`, replacing
an existing binding or appending a new one. -/
def insertEntry : List CacheEntry → CacheEntry → List CacheEntry
  | [], e => [e]
  | x :: xs, e => if x.key == e.key then e :: xs else x :: insertEntry xs e

/-- `AIEngine::getFromCache` (`ai_engine.cpp` lines 376-391).  On a fresh
hit it increments the entry's `access_count`, sets `from_cache` on the
stored result, and returns that result; an expired entry is erased. -/
def getFromCache (cache : List CacheEntry) (key : String) (now : Nat) :
    Option AIAnalysisResult × List CacheEntry :=
  match cache.find? fun e => e.key == key with
  | none => (none, cache)
  | some e =>
    if e.isExpired CACHE_TTL now then (none, eraseKey cache key)
    else
      let e' : CacheEntry :=
        { e with access_count := e.access_count + 1,
                 result := { e.result with from_cache := true } }
      (some e'.result, replaceEntry cache e')

/-- `std::min_element` over the cache with comparator
`a.timestamp < b.timestamp`: left fold keeping the first strictly
smallest element. -/
def minByTimestamp (e : CacheEntry) (es : List CacheEntry) : CacheEntry :=
  es.foldl (fun m x => if x.timestamp < m.timestamp then x else m) e

/-- `AIEngine::evictCacheEntries` (`ai_engine.cpp` lines 411-427),
instrumented to also report the list of evicted keys (empty or a
singleton). -/
def evictCacheEntriesEv (cache : List CacheEntry) : List CacheEntry × List String :=
  match cache with
  | [] => ([], [])
  | e :: es =>
    let victim := minByTimestamp e es
    (eraseKey (e :: es) victim.key, [victim.key])

/-- `AIEngine::storeInCache` (`ai_engine.cpp` lines 394-408), instrumented
with the evicted keys: evict if at capacity, then insert a fresh entry
with `access_count = 1` and `timestamp = now`. -/
def storeInCacheEv (cache : List CacheEntry) (key : String)
    (result : AIAnalysisResult) (now maxSize : Nat) :
    List CacheEntry × List String :=
  let step := if cache.length ≥ maxSize then evictCacheEntriesEv cache else (cache, [])
  (insertEntry step.1 { key := key, result := result, timestamp := now, access_count := 1 },
   step.2)

/-- `AIEngine::storeInCache` without the instrumentation. -/
def storeInCache (cache : List CacheEntry) (key : String)
    (result : AIAnalysisResult) (now maxSize : Nat) : List CacheEntry :=
  (storeInCacheEv cache key result now maxSize).1

/-- A sequence of `storeInCache` calls, accumulating all evicted keys in
order. -/
def storeSeq : List (String × AIAnalysisResult × Nat) → Nat → List CacheEntry →
    List CacheEntry × List String
  | [], _, cache => (cache, [])
  | (k, r, t) :: items, maxSize, cache =>
    let step := storeInCacheEv cache k r t maxSize
    let rest := storeSeq items maxSize step.1
    (rest.1, step.2 ++ rest.2)

/-! ## Metrics (`ai_engine.cpp` lines 610-626) -/

/-- `AIEngine::updateMetrics`: bump the request counters, accumulate the
duration, recompute the average. -/
def updateMetrics (m : Metrics) (duration : Nat) (success : Bool) : Metrics :=
  let m1 : Metrics :=
    { m with
      total_requests := m.total_requests + 1
      successful_requests := m.successful_requests + (if success then 1 else 0)
      failed_requests := m.failed_requests + (if success then 0 else 1)
      total_processing_time := m.total_processing_time + duration }
  { m1 with avg_processing_time := m1.total_processing_time / m1.total_requests }

/-! ## `AIEngine::analyzeCode` (`ai_engine.cpp` lines 93-177)

`svc` is the oracle for the successive attempts of the external service
call inside this invocation; `now` is the wall clock in seconds (used for
cache timestamps and expiry); `elapsedMs` is the elapsed duration of this
call in milliseconds (the difference of the two `steady_clock` reads). -/

/-- The service branch of `analyzeCode`: retry, stamp the processing
time, cache a successful result when caching is enabled, update metrics.
The database write for learning (`storeAnalysisResult`) only logs and
touches no engine state. -/
def analyzeCodeService (st : EngineState) (key : String)
    (svc : Nat → AIAnalysisResult) (now elapsedMs : Nat) :
    AIAnalysisResult × EngineState :=
  let r0 := (executeWithRetry svc st.config.max_retries.toNat).1
  let result := { r0 with processing_time := elapsedMs }
  let cache' :=
    if result.success && st.config.enable_caching then
      storeInCache st.analysis_cache key result now st.config.cache_max_size
    else st.analysis_cache
  (result,
   { st with analysis_cache := cache',
             metrics := updateMetrics st.metrics elapsedMs result.success })

/-- `AIEngine::analyzeCode`: validation, sanitisation, cache lookup,
retried service call, cache store, metrics. -/
def analyzeCode (st : EngineState) (code language file_path : String)
    (svc : Nat → AIAnalysisResult) (now elapsedMs : Nat) :
    AIAnalysisResult × EngineState :=
  if code = "" then
    ({ success := false, error_message := "Empty code provided" },
     { st with metrics := updateMetrics st.metrics 0 false })
  else if language = "" then
    ({ success := false, error_message := "Language not specified" },
     { st with metrics := updateMetrics st.metrics 0 false })
  else
    let safe_code := sanitizeInput code
    let safe_language := sanitizeInput language
    let safe_path := sanitizeInput file_path
    let key := generateCacheKey safe_code safe_language safe_path st.config.model_type
    if st.config.enable_caching then
      match getFromCache st.analysis_cache key now with
      | (some cached, cache') =>
        let m := updateMetrics st.metrics elapsedMs true
        (cached,
         { st with analysis_cache := cache',
                   metrics := { m with cache_hits := m.cache_hits + 1 } })
      | (none, cache') =>
        let st1 : EngineState :=
          { st with analysis_cache := cache',
                    metrics :=
                      { st.metrics with cache_misses := st.metrics.cache_misses + 1 } }
        analyzeCodeService st1 key svc now elapsedMs
    else
      analyzeCodeService st key svc now elapsedMs

/-- `AIEngine::getRecommendations` (`ai_engine.cpp` lines 430-437):
analyze with an empty file path, return the recommendations. -/
def getRecommendations (st : EngineState) (code language : String)
    (svc : Nat → AIAnalysisResult) (now elapsedMs : Nat) :
    List String × EngineState :=
  let step := analyzeCode st code language "" svc now elapsedMs
  (step.1.recommendations, step.2)

/-- `AIEngine::warmup` (`ai_engine.cpp` lines 550-563): analyze a fixed
test snippet. -/
def warmup (st : EngineState) (svc : Nat → AIAnalysisResult) (now elapsedMs : Nat) :
    Bool × EngineState :=
  let step := analyzeCode st "int main() \x7b return 0; \x7d" "cpp" "" svc now elapsedMs
  (step.1.success, step.2)

/-- `AIEngine::clearCache` (`ai_engine.cpp` lines 460-465). -/
def clearCache (st : EngineState) : EngineState :=
  { st with analysis_cache := [] }

/-- `AIEngine::updateConfiguration` (`ai_engine.cpp` lines 440-451):
validate, and only on success replace the whole configuration. -/
def updateConfiguration (st : EngineState) (c : AIEngineConfig) :
    Bool × EngineState :=
  if c.validate then (true, { st with config := c }) else (false, st)

/-! ## Claim C2: retry with exponential backoff -/

/-- The first projection of `analyzeCode` on a fresh engine with non-empty
inputs is the retried service result, stamped with the elapsed time. -/
theorem analyzeCode_initState_fst (cfg : AIEngineConfig)
    (code language file_path : String) (svc : Nat → AIAnalysisResult)
    (now elapsedMs : Nat) (hc : code ≠ "") (hl : language ≠ "") :
    (analyzeCode (initState cfg) code language file_path svc now elapsedMs).1 =
      { (executeWithRetry svc cfg.max_retries.toNat).1 with
          processing_time := elapsedMs } := by
  unfold analyzeCode
  rw [if_neg hc, if_neg hl]
  by_cases hcache : (initState cfg).config.enable_caching
  · simp only [hcache, if_true]
    simp only [initState, getFromCache, List.find?_nil]
    rfl
  · simp only [hcache, if_false]
    rfl

/-- C2: if an operation fails on every attempt before the last and
succeeds on attempt `maxRetries`, `executeWithRetry` returns that final
successful result and sleeps exactly `maxRetries` backoff delays,
starting at 100 ms and each exactly (hence at least) double the previous;
if every attempt fails, the last attempt's result is returned; and
`analyzeCode` on a fresh engine therefore returns success in the first
scenario. -/
theorem retry_backoff_behavior (op : Nat → AIAnalysisResult) (m : Nat)
    (cfg : AIEngineConfig) (code language file_path : String)
    (now elapsedMs : Nat) :
    ((∀ i, i < m → (op i).success = false) → (op m).success = true →
      executeWithRetry op m = (op m, (List.range m).map fun i => 100 * 2 ^ i) ∧
      (executeWithRetry op m).2.length = m ∧
      List.Chain' (fun a b => 2 * a ≤ b) (executeWithRetry op m).2 ∧
      (0 < m → (executeWithRetry op m).2.head? = some 100)) ∧
    ((∀ i, i ≤ m → (op i).success = false) →
      (executeWithRetry op m).1 = op m) ∧
    (code ≠ "" → language ≠ "" →
      (∀ i, i < cfg.max_retries.toNat → (op i).success = false) →
      (op cfg.max_retries.toNat).success = true →
      (analyzeCode (initState cfg) code language file_path op now elapsedMs).1.success
        = true) := by
  refine ⟨?_, ?_, ?_⟩
  · intro hfail hsucc
    have hfail0 : ∀ i, i < m → (op (0 + i)).success = false := by
      intro i hi; simpa using hfail i hi
    have hsucc0 : (op (0 + m)).success = true := by simpa using hsucc
    have hmain := retryLoop_eventually_succeeds op m 0 100 0 hfail0 hsucc0
    have hE : executeWithRetry op m = (op m, (List.range m).map fun i => 100 * 2 ^ i) := by
      unfold executeWithRetry
      simpa using hmain
    refine ⟨hE, by rw [hE]; simp, ?_, ?_⟩
    · rw [hE]
      rcases m with _ | m'
      · simp
      · show List.Chain' _ ((List.range (m' + 1)).map fun i => 100 * 2 ^ i)
        rw [List.chain'_map, List.chain'_range_succ]
        intro j _
        have : 2 * (100 * 2 ^ j) = 100 * 2 ^ (j + 1) := by rw [pow_succ]; ring
        omega
    · intro hm
      rw [hE]
      rcases m with _ | m'
      · omega
      · rw [List.range_succ_eq_map]
        simp
  · intro hfail
    have hfail0 : ∀ i, i ≤ m → (op (0 + i)).success = false := by
      intro i hi; simpa using hfail i hi
    have := retryLoop_all_fail op m 0 100 hfail0
    unfold executeWithRetry
    simpa using this
  · intro hc hl hfail hsucc
    rw [analyzeCode_initState_fst cfg code language file_path op now elapsedMs hc hl]
    have hfail0 : ∀ i, i < cfg.max_retries.toNat → (op (0 + i)).success = false := by
      intro i hi; simpa using hfail i hi
    have hsucc0 : (op (0 + cfg.max_retries.toNat)).success = true := by simpa using hsucc
    have hmain := retryLoop_eventually_succeeds op cfg.max_retries.toNat 0 100 0 hfail0 hsucc0
    have hE : (executeWithRetry op cfg.max_retries.toNat).1 = op cfg.max_retries.toNat := by
      unfold executeWithRetry
      rw [show cfg.max_retries.toNat + 1 = cfg.max_retries.toNat + 1 + 0 from rfl, hmain]
      simp
    show (executeWithRetry op cfg.max_retries.toNat).1.success = true
    rw [hE, hsucc]

/-- Attempt oracle for the witness: fails twice, succeeds on attempt 2. -/
def retryWitnessOp : Nat → AIAnalysisResult := fun i =>
  if i == 2 then { success := true, analysis := "ok" } else { success := false }

/-- Attempt oracle for the witness: always fails, distinct messages. -/
def retryWitnessFailOp : Nat → AIAnalysisResult := fun i =>
  { success := false, error_message := toString i }

/-- Attempt oracle for the witness: fails three times, succeeds on
attempt 3 (the default configuration's `max_retries`). -/
def retryWitnessOp3 : Nat → AIAnalysisResult := fun i =>
  if i == 3 then { success := true, analysis := "ok3" } else { success := false }

/-- Witness for C2 at concrete inputs. -/
theorem retry_backoff_behavior_witness :
    executeWithRetry retryWitnessOp 2 = (retryWitnessOp 2, [100, 200]) ∧
    (executeWithRetry retryWitnessFailOp 2).1 = retryWitnessFailOp 2 ∧
    (analyzeCode (initState {}) "int a;" "cpp" "" retryWitnessOp3 0 7).1.success
      = true := by
  refine ⟨?_, ?_, ?_⟩
  · have h := (retry_backoff_behavior retryWitnessOp 2 {} "int a;" "cpp" "" 0 7).1
      (by decide) (by decide)
    exact h.1.trans (by decide)
  · exact (retry_backoff_behavior retryWitnessFailOp 2 {} "int a;" "cpp" "" 0 7).2.1
      (by decide)
  · exact (retry_backoff_behavior retryWitnessOp3 0 {} "int a;" "cpp" "" 0 7).2.2
      (by decide) (by decide) (by decide) (by decide)

/-! ## Claim C8: configuration validation -/

/-- C8: `updateConfiguration` with an invalid configuration (an empty
executable or service path, `timeout_seconds ≤ 0` — e.g. `0` — or
`max_retries < 0`) returns `false` and leaves the whole engine state,
in particular the active configuration, unchanged; a valid configuration
is installed whole. -/
theorem updateConfiguration_rejects_invalid (st : EngineState) (c : AIEngineConfig) :
    (c.python_executable = "" ∨ c.ai_service_path = "" ∨
        c.timeout_seconds ≤ 0 ∨ c.max_retries < 0 →
      c.validate = false) ∧
    (c.validate = false → updateConfiguration st c = (false, st)) ∧
    (c.validate = true →
      updateConfiguration st c = (true, { st with config := c })) := by
  refine ⟨?_, ?_, ?_⟩
  · intro h
    simp only [AIEngineConfig.validate, Bool.and_eq_false_iff, Bool.not_eq_true',
      beq_iff_eq, decide_eq_false_iff_not, not_lt, not_le]
    rcases h with h | h | h | h
    · exact Or.inl (Or.inl (Or.inl (by simp [h])))
    · exact Or.inl (Or.inl (Or.inr (by simp [h])))
    · exact Or.inl (Or.inr (by omega))
    · exact Or.inr (by omega)
  · intro h
    simp [updateConfiguration, h]
  · intro h
    simp [updateConfiguration, h]

/-- The invalid configuration of the witness: timeout zero. -/
def zeroTimeoutConfig : AIEngineConfig := { timeout_seconds := 0 }

/-- Witness for C8: the default configuration with `timeout_seconds = 0`
fails validation and is rejected without touching the state. -/
theorem updateConfiguration_rejects_invalid_witness :
    zeroTimeoutConfig.validate = false ∧
    updateConfiguration (initState {}) zeroTimeoutConfig = (false, initState {}) := by
  have h := updateConfiguration_rejects_invalid (initState {}) zeroTimeoutConfig
  have hv : zeroTimeoutConfig.validate = false :=
    h.1 (Or.inr (Or.inr (Or.inl (by decide))))
  exact ⟨hv, h.2.1 hv⟩

/-! ## Claim C1: repeated identical calls hit the cache -/

/-- The cache key `analyzeCode` computes for a request, after
sanitisation (`ai_engine.cpp` lines 117-124). -/
def requestKey (cfg : AIEngineConfig) (code language file_path : String) : String :=
  generateCacheKey (sanitizeInput code) (sanitizeInput language)
    (sanitizeInput file_path) cfg.model_type

/-- The result `analyzeCode` produces on the service path: the retried
service outcome stamped with the call's elapsed time
(`ai_engine.cpp` lines 148-160). -/
def retriedResult (cfg : AIEngineConfig) (svc : Nat → AIAnalysisResult)
    (elapsedMs : Nat) : AIAnalysisResult :=
  { (executeWithRetry svc cfg.max_retries.toNat).1 with processing_time := elapsedMs }

/-- Storing into an empty cache appends one fresh entry and evicts
nothing, whatever the capacity. -/
theorem storeInCache_nil (k : String) (r : AIAnalysisResult) (t m : Nat) :
    storeInCache [] k r t m = [{ key := k, result := r, timestamp := t, access_count := 1 }] := by
  by_cases h : ([] : List CacheEntry).length ≥ m <;>
    simp [storeInCache, storeInCacheEv, evictCacheEntriesEv, insertEntry, h]

/-- The cache and configuration left by `analyzeCode` on a fresh engine
when the retried service call succeeds and caching is enabled: a single
entry under the request's key, holding the returned result. -/
theorem analyzeCode_initState_stores (cfg : AIEngineConfig)
    (code language file_path : String) (svc : Nat → AIAnalysisResult)
    (now elapsedMs : Nat) (hc : code ≠ "") (hl : language ≠ "")
    (hcache : cfg.enable_caching = true)
    (hsucc : (executeWithRetry svc cfg.max_retries.toNat).1.success = true) :
    (analyzeCode (initState cfg) code language file_path svc now elapsedMs).2.analysis_cache
        = [{ key := requestKey cfg code language file_path,
             result := retriedResult cfg svc elapsedMs,
             timestamp := now, access_count := 1 }] ∧
    (analyzeCode (initState cfg) code language file_path svc now elapsedMs).2.config
        = cfg := by
  have hres : (retriedResult cfg svc elapsedMs).success = true := hsucc
  unfold analyzeCode
  rw [if_neg hc, if_neg hl]
  have hcfg : (initState cfg).config.enable_caching = true := hcache
  simp only [hcfg, if_true]
  simp only [initState, getFromCache, List.find?_nil]
  show (analyzeCodeService _ _ svc now elapsedMs).2.analysis_cache = _ ∧
    (analyzeCodeService _ _ svc now elapsedMs).2.config = cfg
  unfold analyzeCodeService
  constructor
  · show (if (retriedResult cfg svc elapsedMs).success && cfg.enable_caching then
        storeInCache [] (requestKey cfg code language file_path)
          (retriedResult cfg svc elapsedMs) now cfg.cache_max_size
      else []) = _
    rw [hres, hcache]
    simp only [Bool.and_self, if_true]
    exact storeInCache_nil _ _ _ _
  · rfl

/-- A call on an engine whose cache is exactly one unexpired entry under
the request's key returns that entry's stored result, marked as served
from the cache. -/
theorem analyzeCode_cache_hit (st : EngineState) (code language file_path : String)
    (svc : Nat → AIAnalysisResult) (now elapsedMs : Nat) (entry : CacheEntry)
    (hc : code ≠ "") (hl : language ≠ "")
    (hcache : st.config.enable_caching = true)
    (hmem : st.analysis_cache = [entry])
    (hkey : entry.key = requestKey st.config code language file_path)
    (hexp : entry.isExpired CACHE_TTL now = false) :
    (analyzeCode st code language file_path svc now elapsedMs).1 =
      { entry.result with from_cache := true } := by
  unfold analyzeCode
  rw [if_neg hc, if_neg hl]
  simp only [hcache, if_true, hmem]
  have hfind : List.find? (fun e => e.key == requestKey st.config code language file_path)
      [entry] = some entry := by
    apply List.find?_cons_of_pos
    rw [hkey]
    exact beq_self_eq_true _
  show (match getFromCache [entry] (requestKey st.config code language file_path) now with
    | (some cached, cache') => _
    | (none, cache') => _ : AIAnalysisResult × EngineState).1 = _
  simp only [getFromCache, hfind, hexp]
  rfl

/-- C1: with caching enabled, two identical `analyzeCode` calls on a
fresh engine, the first of which has a successful service outcome, the
second within the one-hour TTL of the first, return on the second call a
result served from the cache whose analysis text and recommendations are
identical to those of the first call's result. -/
theorem repeat_call_served_from_cache (cfg : AIEngineConfig)
    (code language file_path : String) (svc1 svc2 : Nat → AIAnalysisResult)
    (t1 t2 e1 e2 : Nat) (r1 r2 : AIAnalysisResult) (st1 st2 : EngineState)
    (hcache : cfg.enable_caching = true)
    (hcode : code ≠ "") (hlang : language ≠ "")
    (hsvc : (executeWithRetry svc1 cfg.max_retries.toNat).1.success = true)
    (httl : t2 - t1 ≤ CACHE_TTL)
    (h1 : analyzeCode (initState cfg) code language file_path svc1 t1 e1 = (r1, st1))
    (h2 : analyzeCode st1 code language file_path svc2 t2 e2 = (r2, st2)) :
    r2.from_cache = true ∧ r2.analysis = r1.analysis ∧
      r2.recommendations = r1.recommendations := by
  have hstore := analyzeCode_initState_stores cfg code language file_path svc1 t1 e1
    hcode hlang hcache hsvc
  have hr1 : r1 = retriedResult cfg svc1 e1 := by
    have := analyzeCode_initState_fst cfg code language file_path svc1 t1 e1 hcode hlang
    rw [h1] at this
    exact this
  have hst1cache : st1.analysis_cache
      = [{ key := requestKey cfg code language file_path,
           result := retriedResult cfg svc1 e1, timestamp := t1, access_count := 1 }] := by
    have := hstore.1
    rw [h1] at this
    exact this
  have hst1cfg : st1.config = cfg := by
    have := hstore.2
    rw [h1] at this
    exact this
  have hhit := analyzeCode_cache_hit st1 code language file_path svc2 t2 e2
    _ hcode hlang (by rw [hst1cfg]; exact hcache) hst1cache
    (by rw [hst1cfg]) ?hexp
  case hexp =>
    simp only [CacheEntry.isExpired, decide_eq_false_iff_not, not_lt]
    exact httl
  rw [h2] at hhit
  have hr2 : r2 = { (retriedResult cfg svc1 e1) with from_cache := true } := hhit
  rw [hr2, hr1]
  exact ⟨rfl, rfl, rfl⟩

/-- Service oracle for the C1 witness: immediate success. -/
def cacheWitnessSvc : Nat → AIAnalysisResult := fun _ =>
  { success := true, analysis := "analysis text", recommendations := ["use safer api"] }

/-- Service oracle for the C1 witness's second call: always fails, so a
cache miss on the second call would be visible in the conclusion. -/
def cacheWitnessSvcFail : Nat → AIAnalysisResult := fun _ => { success := false }

/-- Witness for C1 at concrete inputs. -/
theorem repeat_call_served_from_cache_witness :
    ((analyzeCode (analyzeCode (initState {}) "int a;" "cpp" "f.cpp" cacheWitnessSvc 10 5).2
        "int a;" "cpp" "f.cpp" cacheWitnessSvcFail 20 1).1.from_cache = true) ∧
    ((analyzeCode (analyzeCode (initState {}) "int a;" "cpp" "f.cpp" cacheWitnessSvc 10 5).2
        "int a;" "cpp" "f.cpp" cacheWitnessSvcFail 20 1).1.analysis =
      (analyzeCode (initState {}) "int a;" "cpp" "f.cpp" cacheWitnessSvc 10 5).1.analysis) ∧
    ((analyzeCode (analyzeCode (initState {}) "int a;" "cpp" "f.cpp" cacheWitnessSvc 10 5).2
        "int a;" "cpp" "f.cpp" cacheWitnessSvcFail 20 1).1.recommendations =
      (analyzeCode (initState {}) "int a;" "cpp" "f.cpp" cacheWitnessSvc 10 5).1.recommendations) := by
  exact repeat_call_served_from_cache {} "int a;" "cpp" "f.cpp"
    cacheWitnessSvc cacheWitnessSvcFail 10 20 5 1
    _ _ _ _ (by decide) (by decide) (by decide) (by decide) (by decide) rfl rfl


/-! ## Claim C4: the cache only ever holds successful results -/

/-- One externally triggered engine operation.  `analyze`,
`getRecommendations` and `warmup` are the public entry points that reach
the cache (each carrying its own service-attempt oracle and clock
readings); `clear` is `clearCache`; `reconfigure` is
`updateConfiguration`.  The private cache store/lookup/evict steps happen
inside `analyzeCode` exactly as in the C++ code. -/
inductive EngineOp where
  | analyze (code language file_path : String)
      (svc : Nat → AIAnalysisResult) (now elapsedMs : Nat)
  | getRecs (code language : String) (svc : Nat → AIAnalysisResult) (now elapsedMs : Nat)
  | warm (svc : Nat → AIAnalysisResult) (now elapsedMs : Nat)
  | clear
  | reconfigure (c : AIEngineConfig)

/-- Apply one operation to the engine state. -/
def runOp (st : EngineState) : EngineOp → EngineState
  | .analyze c l p svc t e => (analyzeCode st c l p svc t e).2
  | .getRecs c l svc t e => (getRecommendations st c l svc t e).2
  | .warm svc t e => (warmup st svc t e).2
  | .clear => clearCache st
  | .reconfigure c => (updateConfiguration st c).2

/-- Apply a sequence of operations. -/
def runOps (st : EngineState) (ops : List EngineOp) : EngineState :=
  ops.foldl runOp st

/-- The invariant of claim C4: every cached result is a success. -/
def cacheSuccessInv (cache : List CacheEntry) : Prop :=
  ∀ e ∈ cache, e.result.success = true

theorem mem_eraseKey {x : CacheEntry} : ∀ (l : List CacheEntry) (k : String),
    x ∈ eraseKey l k → x ∈ l := by
  intro l
  induction l with
  | nil => intro k h; exact absurd h (List.not_mem_nil x)
  | cons e es ih =>
    intro k h
    unfold eraseKey at h
    by_cases hk : (e.key == k) = true
    · rw [if_pos hk] at h
      exact List.mem_cons_of_mem e h
    · rw [if_neg hk] at h
      rcases List.mem_cons.mp h with h | h
      · exact h ▸ List.mem_cons_self e es
      · exact List.mem_cons_of_mem e (ih k h)

theorem mem_replaceEntry {x : CacheEntry} : ∀ (l : List CacheEntry) (e' : CacheEntry),
    x ∈ replaceEntry l e' → x ∈ l ∨ x = e' := by
  intro l
  induction l with
  | nil => intro e' h; exact absurd h (List.not_mem_nil x)
  | cons e es ih =>
    intro e' h
    unfold replaceEntry at h
    by_cases hk : (e.key == e'.key) = true
    · rw [if_pos hk] at h
      rcases List.mem_cons.mp h with h | h
      · exact Or.inr h
      · exact Or.inl (List.mem_cons_of_mem e h)
    · rw [if_neg hk] at h
      rcases List.mem_cons.mp h with h | h
      · exact Or.inl (h ▸ List.mem_cons_self e es)
      · rcases ih e' h with h | h
        · exact Or.inl (List.mem_cons_of_mem e h)
        · exact Or.inr h

theorem mem_insertEntry {x : CacheEntry} : ∀ (l : List CacheEntry) (e : CacheEntry),
    x ∈ insertEntry l e → x ∈ l ∨ x = e := by
  intro l
  induction l with
  | nil =>
    intro e h
    unfold insertEntry at h
    rcases List.mem_cons.mp h with h | h
    · exact Or.inr h
    · exact absurd h (List.not_mem_nil x)
  | cons y ys ih =>
    intro e h
    unfold insertEntry at h
    by_cases hk : (y.key == e.key) = true
    · rw [if_pos hk] at h
      rcases List.mem_cons.mp h with h | h
      · exact Or.inr h
      · exact Or.inl (List.mem_cons_of_mem y h)
    · rw [if_neg hk] at h
      rcases List.mem_cons.mp h with h | h
      · exact Or.inl (h ▸ List.mem_cons_self y ys)
      · rcases ih e h with h | h
        · exact Or.inl (List.mem_cons_of_mem y h)
        · exact Or.inr h

/-- A cache lookup never breaks the success invariant: it only bumps an
access count, sets `from_cache`, or erases an expired entry. -/
theorem cacheSuccessInv_getFromCache (cache : List CacheEntry) (key : String) (now : Nat)
    (h : cacheSuccessInv cache) :
    cacheSuccessInv (getFromCache cache key now).2 := by
  unfold getFromCache
  cases hfind : cache.find? fun e => e.key == key with
  | none => exact h
  | some e =>
    have hmem : e ∈ cache := List.mem_of_find?_eq_some hfind
    by_cases hexp : e.isExpired CACHE_TTL now = true
    · simp only [hexp, if_true]
      intro x hx
      exact h x (mem_eraseKey cache key hx)
    · simp only [hexp, if_false]
      intro x hx
      rcases mem_replaceEntry cache _ hx with hx | hx
      · exact h x hx
      · rw [hx]
        exact h e hmem

/-- Storing a successful result never breaks the success invariant. -/
theorem cacheSuccessInv_storeInCache (cache : List CacheEntry) (key : String)
    (r : AIAnalysisResult) (now maxSize : Nat)
    (h : cacheSuccessInv cache) (hr : r.success = true) :
    cacheSuccessInv (storeInCache cache key r now maxSize) := by
  unfold storeInCache storeInCacheEv
  intro x hx
  dsimp only at hx
  rcases mem_insertEntry _ _ hx with hx | hx
  · by_cases hcap : cache.length ≥ maxSize
    · rw [if_pos hcap] at hx
      unfold evictCacheEntriesEv at hx
      cases cache with
      | nil => exact absurd hx (List.not_mem_nil x)
      | cons e es => exact h x (mem_eraseKey (e :: es) _ hx)
    · rw [if_neg hcap] at hx
      exact h x hx
  · rw [hx]
    exact hr

/-- The service branch of `analyzeCode` never breaks the success
invariant: it stores only when the result succeeded. -/
theorem cacheSuccessInv_service (st : EngineState) (key : String)
    (svc : Nat → AIAnalysisResult) (now elapsedMs : Nat)
    (h : cacheSuccessInv st.analysis_cache) :
    cacheSuccessInv (analyzeCodeService st key svc now elapsedMs).2.analysis_cache := by
  unfold analyzeCodeService
  dsimp only
  split
  · rename_i hcond
    rcases Bool.and_eq_true_iff.mp hcond with ⟨hres, _⟩
    exact cacheSuccessInv_storeInCache _ _ _ _ _ h hres
  · exact h

/-- `analyzeCode` never breaks the success invariant. -/
theorem cacheSuccessInv_analyzeCode (st : EngineState) (code language file_path : String)
    (svc : Nat → AIAnalysisResult) (now elapsedMs : Nat)
    (h : cacheSuccessInv st.analysis_cache) :
    cacheSuccessInv (analyzeCode st code language file_path svc now elapsedMs).2.analysis_cache := by
  unfold analyzeCode
  by_cases hc : code = ""
  · rw [if_pos hc]
    exact h
  · rw [if_neg hc]
    by_cases hl : language = ""
    · rw [if_pos hl]
      exact h
    · rw [if_neg hl]
      by_cases hcache : st.config.enable_caching = true
      · simp only [hcache, if_true]
        rcases hg : getFromCache st.analysis_cache
            (generateCacheKey (sanitizeInput code) (sanitizeInput language)
              (sanitizeInput file_path) st.config.model_type) now with ⟨o, cache'⟩
        have hinv' : cacheSuccessInv cache' := by
          have := cacheSuccessInv_getFromCache st.analysis_cache
            (generateCacheKey (sanitizeInput code) (sanitizeInput language)
              (sanitizeInput file_path) st.config.model_type) now h
          rwa [hg] at this
        cases o with
        | some cached => exact hinv'
        | none => exact cacheSuccessInv_service _ _ svc now elapsedMs hinv'
      · simp only [hcache, if_false]
        exact cacheSuccessInv_service _ _ svc now elapsedMs h

/-- Every single engine operation preserves the success invariant. -/
theorem cacheSuccessInv_runOp (st : EngineState) (op : EngineOp)
    (h : cacheSuccessInv st.analysis_cache) :
    cacheSuccessInv (runOp st op).analysis_cache := by
  cases op with
  | analyze c l p svc t e => exact cacheSuccessInv_analyzeCode st c l p svc t e h
  | getRecs c l svc t e => exact cacheSuccessInv_analyzeCode st c l "" svc t e h
  | warm svc t e =>
    exact cacheSuccessInv_analyzeCode st "int main() \x7b return 0; \x7d" "cpp" "" svc t e h
  | clear =>
    intro x hx
    exact absurd hx (List.not_mem_nil x)
  | reconfigure c =>
    show cacheSuccessInv (updateConfiguration st c).2.analysis_cache
    unfold updateConfiguration
    split <;> exact h

/-- C4: starting from a fresh engine, no sequence of engine operations
ever leaves a failed (`success = false`) result in the analysis cache:
every cached entry's result has `success = true`. -/
theorem cache_never_stores_failure (cfg : AIEngineConfig) (ops : List EngineOp)
    (entry : CacheEntry)
    (hmem : entry ∈ (runOps (initState cfg) ops).analysis_cache) :
    entry.result.success = true := by
  suffices hinv : ∀ (l : List EngineOp) (st : EngineState),
      cacheSuccessInv st.analysis_cache → cacheSuccessInv (runOps st l).analysis_cache by
    refine hinv ops (initState cfg) ?_ entry hmem
    intro x hx
    exact absurd hx (List.not_mem_nil x)
  intro l
  induction l with
  | nil => intro st h; exact h
  | cons op l ih =>
    intro st h
    exact ih (runOp st op) (cacheSuccessInv_runOp st op h)

/-- Service oracle for the C4 witness. -/
def invWitnessSvc : Nat → AIAnalysisResult := fun _ =>
  { success := true, analysis := "A" }

/-- Operation sequence for the C4 witness. -/
def invWitnessOps : List EngineOp :=
  [EngineOp.analyze "int a;" "cpp" "" invWitnessSvc 0 0]

/-- Witness for C4: after one successful analysis the cache holds one
entry, and the theorem yields its success flag. -/
theorem cache_never_stores_failure_witness :
    ({ key := "int a;|cpp||advanced",
       result := { success := true, analysis := "A" },
       timestamp := 0, access_count := 1 } : CacheEntry) ∈
      (runOps (initState {}) invWitnessOps).analysis_cache ∧
    ({ key := "int a;|cpp||advanced",
       result := { success := true, analysis := "A" },
       timestamp := 0, access_count := 1 } : CacheEntry).result.success = true := by
  refine ⟨by decide, cache_never_stores_failure {} invWitnessOps _ (by decide)⟩


/-! ## Claim C3: eviction removes exactly the oldest entry -/

/-- The keys of a list of pending store requests. -/
def itemKeys (items : List (String × AIAnalysisResult × Nat)) : List String :=
  items.map fun x => x.1

/-- The store timestamps of a list of pending store requests. -/
def itemTimes (items : List (String × AIAnalysisResult × Nat)) : List Nat :=
  items.map fun x => x.2.2

/-- If no later element has a strictly smaller timestamp, the fold keeps
its seed: `std::min_element` keeps the first minimum. -/
theorem minByTimestamp_of_min (e : CacheEntry) (es : List CacheEntry)
    (h : ∀ x ∈ es, ¬ x.timestamp < e.timestamp) : minByTimestamp e es = e := by
  induction es with
  | nil => rfl
  | cons x es ih =>
    show List.foldl _ (if x.timestamp < e.timestamp then x else e) es = e
    rw [if_neg (h x (List.mem_cons_self x es))]
    exact ih fun y hy => h y (List.mem_cons_of_mem x hy)

/-- When the head of the cache is strictly older than every other entry,
eviction removes exactly the head. -/
theorem evict_head_of_increasing (e : CacheEntry) (es : List CacheEntry)
    (h : ∀ x ∈ es, e.timestamp < x.timestamp) :
    evictCacheEntriesEv (e :: es) = (es, [e.key]) := by
  have hmin : minByTimestamp e es = e :=
    minByTimestamp_of_min e es fun x hx => by have := h x hx; omega
  show (eraseKey (e :: es) (minByTimestamp e es).key, [(minByTimestamp e es).key])
    = (es, [e.key])
  rw [hmin]
  show (if (e.key == e.key) = true then es else e :: eraseKey es e.key, [e.key])
    = (es, [e.key])
  rw [if_pos (beq_self_eq_true e.key)]

/-- Assigning a key absent from the map appends a new binding. -/
theorem insertEntry_fresh : ∀ (l : List CacheEntry) (e : CacheEntry),
    (∀ x ∈ l, x.key ≠ e.key) → insertEntry l e = l ++ [e] := by
  intro l
  induction l with
  | nil => intro e _; rfl
  | cons x xs ih =>
    intro e h
    show (if (x.key == e.key) = true then e :: xs else x :: insertEntry xs e) = _
    rw [if_neg ?hcond, ih e fun y hy => h y (List.mem_cons_of_mem x hy)]
    · rfl
    case hcond =>
      simp only [beq_iff_eq]
      exact h x (List.mem_cons_self x xs)

/-- Filling a cache that begins with its oldest entry `e` and then
overflowing it by exactly one store of pairwise newer, fresh keys evicts
exactly `e`. -/
theorem storeSeq_evicts_head (maxSize : Nat) :
    ∀ (items : List (String × AIAnalysisResult × Nat)) (e : CacheEntry)
      (cache : List CacheEntry),
      items ≠ [] →
      (e :: cache).length + items.length = maxSize + 1 →
      ((e :: cache).map (fun x => x.key) ++ itemKeys items).Nodup →
      ((e :: cache).map (fun x => x.timestamp) ++ itemTimes items).Pairwise (· < ·) →
      (storeSeq items maxSize (e :: cache)).2 = [e.key] := by
  intro items
  induction items with
  | nil => intro e cache hne; exact absurd rfl hne
  | cons x xs ih =>
    intro e cache _ hlen hkeys htimes
    rcases x with ⟨k, r, t⟩
    have hheadlt : ∀ b ∈ (cache.map fun x => x.timestamp) ++ itemTimes ((k, r, t) :: xs),
        e.timestamp < b := by
      have := List.pairwise_cons.mp
        (by simpa only [List.map_cons, List.cons_append] using htimes)
      exact this.1
    cases xs with
    | nil =>
      have hcap : (e :: cache).length ≥ maxSize := by
        simp only [List.length_cons, List.length_nil] at hlen ⊢
        omega
      have hmin : ∀ y ∈ cache, e.timestamp < y.timestamp := fun y hy =>
        hheadlt y.timestamp (List.mem_append_left _ (List.mem_map_of_mem _ hy))
      have hstep : storeInCacheEv (e :: cache) k r t maxSize =
          (insertEntry cache { key := k, result := r, timestamp := t, access_count := 1 },
           [e.key]) := by
        show (insertEntry (if (e :: cache).length ≥ maxSize then
              evictCacheEntriesEv (e :: cache) else (e :: cache, [])).1
            { key := k, result := r, timestamp := t, access_count := 1 },
          (if (e :: cache).length ≥ maxSize then
              evictCacheEntriesEv (e :: cache) else (e :: cache, [])).2) = _
        rw [if_pos hcap, evict_head_of_increasing e cache hmin]
      show ((storeSeq [] maxSize (storeInCacheEv (e :: cache) k r t maxSize).1).1,
          (storeInCacheEv (e :: cache) k r t maxSize).2 ++
            (storeSeq [] maxSize (storeInCacheEv (e :: cache) k r t maxSize).1).2).2
          = [e.key]
      rw [hstep]
      rfl
    | cons y ys =>
      have hnocap : ¬ (e :: cache).length ≥ maxSize := by
        simp only [List.length_cons, List.length_nil] at hlen ⊢
        omega
      have hfresh : ∀ z ∈ e :: cache, z.key ≠ k := by
        intro z hz hzk
        have hzmem : z.key ∈ (e :: cache).map fun x => x.key :=
          List.mem_map_of_mem _ hz
        have hdisj := (List.nodup_append.mp hkeys).2.2
        exact hdisj hzmem (by rw [hzk]; exact List.mem_cons_self k _)
      have hstep : storeInCacheEv (e :: cache) k r t maxSize =
          (e :: (cache ++ [{ key := k, result := r, timestamp := t, access_count := 1 }]),
           []) := by
        show (insertEntry (if (e :: cache).length ≥ maxSize then
              evictCacheEntriesEv (e :: cache) else (e :: cache, [])).1
            { key := k, result := r, timestamp := t, access_count := 1 },
          (if (e :: cache).length ≥ maxSize then
              evictCacheEntriesEv (e :: cache) else (e :: cache, [])).2) = _
        rw [if_neg hnocap]
        show (insertEntry (e :: cache)
            { key := k, result := r, timestamp := t, access_count := 1 }, []) = _
        rw [insertEntry_fresh (e :: cache) _ hfresh]
        rfl
      show ((storeSeq (y :: ys) maxSize (storeInCacheEv (e :: cache) k r t maxSize).1).1,
          (storeInCacheEv (e :: cache) k r t maxSize).2 ++
            (storeSeq (y :: ys) maxSize (storeInCacheEv (e :: cache) k r t maxSize).1).2).2
          = [e.key]
      rw [hstep]
      show (storeSeq (y :: ys) maxSize
          (e :: (cache ++ [{ key := k, result := r, timestamp := t, access_count := 1 }]))).2
          = [e.key]
      refine ih e (cache ++ [{ key := k, result := r, timestamp := t, access_count := 1 }])
        (by simp) ?_ ?_ ?_
      · simp only [List.length_cons, List.length_append, List.length_nil] at hlen ⊢
        omega
      · have hshape : (e :: (cache ++
            [{ key := k, result := r, timestamp := t, access_count := 1 }])).map
              (fun x => x.key) ++ itemKeys (y :: ys)
            = (e :: cache).map (fun x => x.key) ++ itemKeys ((k, r, t) :: y :: ys) := by
          simp only [List.map_cons, List.map_append, List.map_nil, itemKeys]
          simp [List.append_assoc]
        rw [hshape]
        exact hkeys
      · have hshape : (e :: (cache ++
            [{ key := k, result := r, timestamp := t, access_count := 1 }])).map
              (fun x => x.timestamp) ++ itemTimes (y :: ys)
            = (e :: cache).map (fun x => x.timestamp) ++ itemTimes ((k, r, t) :: y :: ys) := by
          simp only [List.map_cons, List.map_append, List.map_nil, itemTimes]
          simp [List.append_assoc]
        rw [hshape]
        exact htimes

/-- `std::min_element`, and hence the evicted key, depends only on each
entry's key and timestamp, never on its access count or stored result. -/
theorem minByTimestamp_proj : ∀ (es1 es2 : List CacheEntry) (e1 e2 : CacheEntry),
    (e1.key, e1.timestamp) = (e2.key, e2.timestamp) →
    es1.map (fun e => (e.key, e.timestamp)) = es2.map (fun e => (e.key, e.timestamp)) →
    ((minByTimestamp e1 es1).key, (minByTimestamp e1 es1).timestamp) =
      ((minByTimestamp e2 es2).key, (minByTimestamp e2 es2).timestamp) := by
  intro es1
  induction es1 with
  | nil =>
    intro es2 e1 e2 he hes
    cases es2 with
    | nil => exact he
    | cons _ _ => simp at hes
  | cons x xs ih =>
    intro es2 e1 e2 he hes
    cases es2 with
    | nil => simp at hes
    | cons y ys =>
      simp only [List.map_cons, List.cons.injEq] at hes
      obtain ⟨hxy, hes2⟩ := hes
      have hts : x.timestamp = y.timestamp := congrArg Prod.snd hxy
      have hts12 : e1.timestamp = e2.timestamp := congrArg Prod.snd he
      show ((minByTimestamp (if x.timestamp < e1.timestamp then x else e1) xs).key,
          (minByTimestamp (if x.timestamp < e1.timestamp then x else e1) xs).timestamp) =
        ((minByTimestamp (if y.timestamp < e2.timestamp then y else e2) ys).key,
          (minByTimestamp (if y.timestamp < e2.timestamp then y else e2) ys).timestamp)
      by_cases hlt : x.timestamp < e1.timestamp
      · have hlt2 : y.timestamp < e2.timestamp := by
          rw [← hts, ← hts12]
          exact hlt
        rw [if_pos hlt, if_pos hlt2]
        exact ih ys x y hxy hes2
      · have hlt2 : ¬ y.timestamp < e2.timestamp := by
          rw [← hts, ← hts12]
          exact hlt
        rw [if_neg hlt, if_neg hlt2]
        exact ih ys e1 e2 he hes2

/-- C3: inserting `maxSize + 1` successful results under distinct keys
with strictly increasing timestamps into an initially empty cache evicts
exactly one entry, namely the first-inserted (oldest-`createdAt`) one;
and the choice of evicted key depends only on keys and timestamps, never
on access counts. -/
theorem cache_eviction_oldest (maxSize : Nat) (k : String) (r : AIAnalysisResult)
    (t : Nat) (rest : List (String × AIAnalysisResult × Nat)) (c1 c2 : List CacheEntry)
    (hmax : 0 < maxSize)
    (hlen : ((k, r, t) :: rest).length = maxSize + 1)
    (hkeys : (itemKeys ((k, r, t) :: rest)).Nodup)
    (htimes : (itemTimes ((k, r, t) :: rest)).Pairwise (· < ·))
    (hproj : c1.map (fun e => (e.key, e.timestamp)) = c2.map fun e => (e.key, e.timestamp)) :
    (storeSeq ((k, r, t) :: rest) maxSize []).2 = [k] ∧
    (evictCacheEntriesEv c1).2 = (evictCacheEntriesEv c2).2 := by
  constructor
  · have hstep : storeInCacheEv [] k r t maxSize =
        ([{ key := k, result := r, timestamp := t, access_count := 1 }], []) := by
      show (insertEntry (if ([] : List CacheEntry).length ≥ maxSize then
            evictCacheEntriesEv [] else ([], [])).1
          { key := k, result := r, timestamp := t, access_count := 1 },
        (if ([] : List CacheEntry).length ≥ maxSize then
            evictCacheEntriesEv [] else ([], [])).2) = _
      rw [if_neg (by simp only [List.length_nil]; omega)]
      rfl
    show ((storeSeq rest maxSize (storeInCacheEv [] k r t maxSize).1).1,
      (storeInCacheEv [] k r t maxSize).2 ++
        (storeSeq rest maxSize (storeInCacheEv [] k r t maxSize).1).2).2 = [k]
    rw [hstep]
    show (storeSeq rest maxSize
      [{ key := k, result := r, timestamp := t, access_count := 1 }]).2 = [k]
    cases rest with
    | nil =>
      exfalso
      simp only [List.length_cons, List.length_nil] at hlen
      omega
    | cons x xs =>
      apply storeSeq_evicts_head maxSize (x :: xs)
        { key := k, result := r, timestamp := t, access_count := 1 } [] (by simp)
      · simp only [List.length_cons, List.length_nil] at hlen ⊢
        omega
      · simpa only [List.map_cons, List.map_nil, itemKeys, List.nil_append,
          List.cons_append] using hkeys
      · simpa only [List.map_cons, List.map_nil, itemTimes, List.nil_append,
          List.cons_append] using htimes
  · cases c1 with
    | nil =>
      cases c2 with
      | nil => rfl
      | cons _ _ => simp at hproj
    | cons e1 es1 =>
      cases c2 with
      | nil => simp at hproj
      | cons e2 es2 =>
        simp only [List.map_cons, List.cons.injEq] at hproj
        obtain ⟨he, hes⟩ := hproj
        show [(minByTimestamp e1 es1).key] = [(minByTimestamp e2 es2).key]
        have hpair := minByTimestamp_proj es1 es2 e1 e2 he hes
        have hk : (minByTimestamp e1 es1).key = (minByTimestamp e2 es2).key :=
          congrArg Prod.fst hpair
        rw [hk]

/-- Store requests for the C3 witness: three distinct keys, increasing
timestamps, into a cache of capacity two. -/
def evictWitnessItems : List (String × AIAnalysisResult × Nat) :=
  [("k0", { success := true }, 0), ("k1", { success := true }, 1),
   ("k2", { success := true }, 2)]

/-- Witness for C3 at concrete inputs: the first key is evicted. -/
theorem cache_eviction_oldest_witness :
    (storeSeq evictWitnessItems 2 []).2 = ["k0"] ∧
    (evictCacheEntriesEv []).2 = (evictCacheEntriesEv []).2 := by
  exact cache_eviction_oldest 2 "k0" { success := true } 0
    [("k1", { success := true }, 1), ("k2", { success := true }, 2)] [] []
    (by decide) (by decide) (by decide) (by decide) rfl


/-! ## AnalysisManager data model (`analysis_manager.cpp`)

`std::map<std::string, std::vector<AnalysisResult>>` is modelled as an
association list in insertion order (the `std::map` sorted iteration
order is irrelevant to the claims, which compare maps through
`lookupRes` or through values); `analyzeFile`'s outcome for each file is
part of the modelled directory entry, since it depends on filesystem
contents and analyzer/AI behaviour external to the scan loop. -/

/-- `AnalysisResult` from `include/analysis/analysis_result.h`.  The C++
`int line_number` is modelled as `Nat`: every line number the embedded
code produces is the default `0` or a positive running counter. -/
structure AnalysisResult where
  file_path : String
  rule_id : String
  message : String
  severity : String
  line_number : Nat := 0
deriving DecidableEq

/-- The exception taxonomy of `error_handler.h` as seen by the scan
loops: `FileSystemException` and `AnalysisException` are the two types
`analyzeDirectory` catches per file (`analysis_manager.cpp` lines
150-156); any other `AnalyzerException` (including wrapped
`std::exception`s, code 9999) propagates out of the loop. -/
inductive AnalyzerExn where
  | fileSystem (msg : String)
  | analysisExn (msg : String)
  | otherExn (msg : String)
deriving DecidableEq

/-- The modelled outcome of analysing one file at the `analyzeFile`
boundary: the final per-file result list (analyzer output, already
AI-enhanced when the AI engine is available), or a thrown exception. -/
inductive FileBehavior where
  | ok (results : List AnalysisResult)
  | raisesFileSystem (msg : String)
  | raisesAnalysis (msg : String)
  | raisesOther (msg : String)
deriving DecidableEq

/-- One filesystem entry of the scanned tree.  `supported` is whether
`getAnalyzerForFile` finds an analyzer for the path. -/
structure DirEntry where
  path : String
  isRegularFile : Bool
  supported : Bool
  behavior : FileBehavior
deriving DecidableEq

/-- A recoverable (per-file isolated) exception outcome. -/
def FileBehavior.recoverableRaise : FileBehavior → Prop
  | .raisesFileSystem _ => True
  | .raisesAnalysis _ => True
  | _ => False

/-- The synthetic finding `analyzeFile` returns for an unsupported file
(`analysis_manager.cpp` lines 109-114). -/
def unsupportedResult (path : String) : AnalysisResult :=
  { file_path := path, rule_id := "UNSUPPORTED_LANGUAGE",
    message := "File type not supported", severity := "ERROR", line_number := 0 }

/-- `AnalysisManager::analyzeFile` (`analysis_manager.cpp` lines
102-131): throw `AnalysisException` if cancelled, return the synthetic
`UNSUPPORTED_LANGUAGE` finding for unsupported files, otherwise produce
the entry's modelled outcome. -/
def analyzeFileM (cancelled : Bool) (e : DirEntry) :
    Except AnalyzerExn (List AnalysisResult) :=
  if cancelled then .error (.analysisExn "Analysis cancelled by user")
  else if !e.supported then .ok [unsupportedResult e.path]
  else match e.behavior with
    | .ok rs => .ok rs
    | .raisesFileSystem m => .error (.fileSystem m)
    | .raisesAnalysis m => .error (.analysisExn m)
    | .raisesOther m => .error (.otherExn m)

/-- The cooperative cancellation flag: `cancelAt = some n` models
`cancelAnalysis` taking effect before iteration `n` of the scan loop
(the atomic flag is only observed at these per-iteration checkpoints;
`none` means it is never raised). -/
def cancelledAt (cancelAt : Option Nat) (i : Nat) : Bool :=
  match cancelAt with
  | none => false
  | some n => decide (n ≤ i)

/-- `all_results[path] = file_results` on a map: replace an existing
binding or append a new one. -/
def insertResult (acc : List (String × List AnalysisResult)) (p : String)
    (rs : List AnalysisResult) : List (String × List AnalysisResult) :=
  match acc with
  | [] => [(p, rs)]
  | (q, qs) :: acc' =>
    if q == p then (p, rs) :: acc' else (q, qs) :: insertResult acc' p rs

/-- Map lookup, for order-insensitive statements about result maps. -/
def lookupRes (m : List (String × List AnalysisResult)) (p : String) :
    Option (List AnalysisResult) :=
  (m.find? fun x => x.1 == p).map fun x => x.2

/-- The loop of `AnalysisManager::analyzeDirectory`
(`analysis_manager.cpp` lines 133-167): check the cancellation flag at
each entry (a raised flag throws, is caught by the outer handler, and
the partial map is returned); skip non-regular files; analyze each
regular file, catching `FileSystemException` and `AnalysisException`
per file and continuing; any other exception ends the loop with the
partial map (outer `catch (const AnalyzerException&)`).  Results are
stored only when non-empty. -/
def analyzeDirectoryGo (cancelAt : Option Nat) :
    List DirEntry → Nat → List (String × List AnalysisResult) →
    List (String × List AnalysisResult)
  | [], _, acc => acc
  | e :: es, i, acc =>
    if cancelledAt cancelAt i then acc
    else if e.isRegularFile then
      match analyzeFileM (cancelledAt cancelAt i) e with
      | .ok rs =>
        analyzeDirectoryGo cancelAt es (i + 1)
          (if rs.isEmpty then acc else insertResult acc e.path rs)
      | .error (.fileSystem _) => analyzeDirectoryGo cancelAt es (i + 1) acc
      | .error (.analysisExn _) => analyzeDirectoryGo cancelAt es (i + 1) acc
      | .error (.otherExn _) => acc
    else analyzeDirectoryGo cancelAt es (i + 1) acc

/-- `AnalysisManager::analyzeDirectory`. -/
def analyzeDirectoryM (entries : List DirEntry) (cancelAt : Option Nat) :
    List (String × List AnalysisResult) :=
  analyzeDirectoryGo cancelAt entries 0 []

/-- The worker loop of `AnalysisManager::analyzeDirectoryParallel`
(`analysis_manager.cpp` lines 189-206), after the pre-enumeration pass
has filtered the regular files that have an analyzer (lines 179-183).
The pool of workers claiming the shared atomic index is modelled as one
worker consuming the indices in order: when no error and no
cancellation occurs every file is processed exactly once under any
schedule, so the map content is schedule-independent; on error or
cancellation the surviving content is schedule-dependent and the
sequential consumption is one admissible schedule.  Any exception from
`analyzeFile` sets `has_errors`, which stops the claiming loop. -/
def parallelGo (cancelAt : Option Nat) :
    List DirEntry → Nat → List (String × List AnalysisResult) →
    List (String × List AnalysisResult)
  | [], _, acc => acc
  | e :: es, i, acc =>
    if cancelledAt cancelAt i then acc
    else match analyzeFileM (cancelledAt cancelAt i) e with
      | .ok rs =>
        parallelGo cancelAt es (i + 1)
          (if rs.isEmpty then acc else insertResult acc e.path rs)
      | .error _ => acc

/-- `AnalysisManager::analyzeDirectoryParallel`. -/
def analyzeDirectoryParallelM (entries : List DirEntry) (cancelAt : Option Nat) :
    List (String × List AnalysisResult) :=
  parallelGo cancelAt (entries.filter fun e => e.isRegularFile && e.supported) 0 []

/-! ## Map lemmas -/

theorem mem_insertResult {x : String × List AnalysisResult} :
    ∀ (acc : List (String × List AnalysisResult)) (p : String)
      (rs : List AnalysisResult),
      x ∈ insertResult acc p rs → x ∈ acc ∨ x = (p, rs) := by
  intro acc
  induction acc with
  | nil =>
    intro p rs h
    rcases List.mem_cons.mp h with h | h
    · exact Or.inr h
    · exact absurd h (List.not_mem_nil x)
  | cons y acc ih =>
    intro p rs h
    rcases y with ⟨q, qs⟩
    unfold insertResult at h
    by_cases hq : (q == p) = true
    · rw [if_pos hq] at h
      rcases List.mem_cons.mp h with h | h
      · exact Or.inr h
      · exact Or.inl (List.mem_cons_of_mem _ h)
    · rw [if_neg hq] at h
      rcases List.mem_cons.mp h with h | h
      · exact Or.inl (h ▸ List.mem_cons_self _ _)
      · rcases ih p rs h with h | h
        · exact Or.inl (List.mem_cons_of_mem _ h)
        · exact Or.inr h

theorem lookupRes_of_not_mem_keys (m : List (String × List AnalysisResult))
    (p : String) (h : p ∉ m.map fun x => x.1) : lookupRes m p = none := by
  unfold lookupRes
  rw [List.find?_eq_none.mpr]
  · rfl
  · intro x hx
    simp only [beq_iff_eq]
    intro hxp
    exact h (hxp ▸ List.mem_map_of_mem _ hx)

theorem keys_insertResult {r : String} :
    ∀ (acc : List (String × List AnalysisResult)) (p : String)
      (rs : List AnalysisResult),
      r ∈ (insertResult acc p rs).map (fun x => x.1) →
      r = p ∨ r ∈ acc.map fun x => x.1 := by
  intro acc p rs h
  rcases List.mem_map.mp h with ⟨x, hx, hrx⟩
  rcases mem_insertResult acc p rs hx with hx | hx
  · exact Or.inr (hrx ▸ List.mem_map_of_mem _ hx)
  · rw [hx] at hrx
    exact Or.inl hrx.symm

theorem lookupRes_cons_self (x : String × List AnalysisResult)
    (acc : List (String × List AnalysisResult)) (p : String)
    (h : (x.1 == p) = true) : lookupRes (x :: acc) p = some x.2 := by
  simp [lookupRes, List.find?, h]

theorem lookupRes_cons_ne (x : String × List AnalysisResult)
    (acc : List (String × List AnalysisResult)) (p : String)
    (h : (x.1 == p) = false) : lookupRes (x :: acc) p = lookupRes acc p := by
  simp [lookupRes, List.find?, h]

theorem lookupRes_insertResult_ne :
    ∀ (acc : List (String × List AnalysisResult)) (p q : String)
      (rs : List AnalysisResult), q ≠ p →
      lookupRes (insertResult acc q rs) p = lookupRes acc p := by
  intro acc
  induction acc with
  | nil =>
    intro p q rs hne
    unfold insertResult
    rw [lookupRes_cons_ne (q, rs) [] p (by simpa using hne)]
  | cons y acc ih =>
    intro p q rs hne
    rcases y with ⟨a, as⟩
    unfold insertResult
    by_cases ha : (a == q) = true
    · rw [if_pos ha]
      have haq : a = q := beq_iff_eq.mp ha
      have hanep : (a == p) = false := by
        simp only [beq_eq_false_iff_ne, ne_eq]
        rw [haq]
        exact hne
      rw [lookupRes_cons_ne (q, rs) acc p (by simpa using hne),
        lookupRes_cons_ne (a, as) acc p hanep]
    · rw [if_neg ha]
      by_cases hap : (a == p) = true
      · rw [lookupRes_cons_self (a, as) _ p hap, lookupRes_cons_self (a, as) acc p hap]
      · have hap' : (a == p) = false := by simpa using hap
        rw [lookupRes_cons_ne (a, as) _ p hap', lookupRes_cons_ne (a, as) acc p hap']
        exact ih p q rs hne

theorem lookupRes_mem_keys (m : List (String × List AnalysisResult)) (p : String)
    (rs : List AnalysisResult) (h : lookupRes m p = some rs) :
    p ∈ m.map fun x => x.1 := by
  by_contra hmem
  rw [lookupRes_of_not_mem_keys m p hmem] at h
  exact Option.noConfusion h


/-! ## Claim C10: result maps never bind a path to an empty list -/

/-- The serial scan loop only ever inserts non-empty result lists. -/
theorem analyzeDirectoryGo_values_nonempty (cancelAt : Option Nat) :
    ∀ (es : List DirEntry) (i : Nat) (acc : List (String × List AnalysisResult)),
      (∀ x ∈ acc, x.2 ≠ []) →
      ∀ x ∈ analyzeDirectoryGo cancelAt es i acc, x.2 ≠ [] := by
  intro es
  induction es with
  | nil => intro i acc hacc; exact hacc
  | cons e es ih =>
    intro i acc hacc
    simp only [analyzeDirectoryGo]
    split
    · exact hacc
    · split
      · split
        · rename_i rs _
          apply ih
          split
          · exact hacc
          · rename_i hrs
            intro x hx
            rcases mem_insertResult acc e.path rs hx with hx | hx
            · exact hacc x hx
            · rw [hx]
              intro hnil
              have hrsnil : rs = [] := hnil
              rw [hrsnil] at hrs
              exact hrs rfl
        · exact ih (i + 1) acc hacc
        · exact ih (i + 1) acc hacc
        · exact hacc
      · exact ih (i + 1) acc hacc

/-- The parallel worker loop only ever inserts non-empty result lists. -/
theorem parallelGo_values_nonempty (cancelAt : Option Nat) :
    ∀ (es : List DirEntry) (i : Nat) (acc : List (String × List AnalysisResult)),
      (∀ x ∈ acc, x.2 ≠ []) →
      ∀ x ∈ parallelGo cancelAt es i acc, x.2 ≠ [] := by
  intro es
  induction es with
  | nil => intro i acc hacc; exact hacc
  | cons e es ih =>
    intro i acc hacc
    simp only [parallelGo]
    split
    · exact hacc
    · split
      · rename_i rs _
        apply ih
        split
        · exact hacc
        · rename_i hrs
          intro x hx
          rcases mem_insertResult acc e.path rs hx with hx | hx
          · exact hacc x hx
          · rw [hx]
            intro hnil
            have hrsnil : rs = [] := hnil
            rw [hrsnil] at hrs
            exact hrs rfl
      · exact hacc

/-- A successful lookup exhibits a member of the map. -/
theorem lookupRes_some_mem (m : List (String × List AnalysisResult)) (p : String)
    (rs : List AnalysisResult) (h : lookupRes m p = some rs) : (∃ q, (q, rs) ∈ m) := by
  unfold lookupRes at h
  rcases Option.map_eq_some'.mp h with ⟨x, hfind, hx⟩
  refine ⟨x.1, ?_⟩
  have hmem := List.mem_of_find?_eq_some hfind
  rw [← hx]
  exact hmem

/-- C10: neither `analyzeDirectory` nor `analyzeDirectoryParallel` ever
maps a file path to an empty findings list — a file whose analysis
completes with zero findings is omitted from the returned map
entirely. -/
theorem result_maps_never_bind_empty (entries : List DirEntry) (cancelAt : Option Nat)
    (p : String) (rs : List AnalysisResult) :
    (lookupRes (analyzeDirectoryM entries cancelAt) p = some rs → rs ≠ []) ∧
    (lookupRes (analyzeDirectoryParallelM entries cancelAt) p = some rs → rs ≠ []) := by
  constructor
  · intro h
    rcases lookupRes_some_mem _ p rs h with ⟨q, hq⟩
    have := analyzeDirectoryGo_values_nonempty cancelAt entries 0 []
      (fun x hx => absurd hx (List.not_mem_nil x)) (q, rs) hq
    exact this
  · intro h
    rcases lookupRes_some_mem _ p rs h with ⟨q, hq⟩
    have := parallelGo_values_nonempty cancelAt
      (entries.filter fun e => e.isRegularFile && e.supported) 0 []
      (fun x hx => absurd hx (List.not_mem_nil x)) (q, rs) hq
    exact this

/-- A sample finding used by several witnesses. -/
def smellFinding : AnalysisResult :=
  { file_path := "a.cpp", rule_id := "CODE_SMELL", message := "m",
    severity := "WARNING", line_number := 1 }

/-- Directory for the C10 witness: one supported file with one finding. -/
def nonEmptyWitnessEntries : List DirEntry :=
  [{ path := "a.cpp", isRegularFile := true, supported := true,
     behavior := FileBehavior.ok [smellFinding] }]

/-- Witness for C10 at concrete inputs. -/
theorem result_maps_never_bind_empty_witness :
    lookupRes (analyzeDirectoryM nonEmptyWitnessEntries none) "a.cpp"
        = some [smellFinding] ∧
    [smellFinding] ≠ ([] : List AnalysisResult) ∧
    lookupRes (analyzeDirectoryParallelM nonEmptyWitnessEntries none) "a.cpp"
        = some [smellFinding] := by
  refine ⟨by decide, ?_, by decide⟩
  exact (result_maps_never_bind_empty nonEmptyWitnessEntries none "a.cpp"
    [smellFinding]).1 (by decide)

/-! ## Claim C6: parallel versus serial directory analysis -/

/-- A regular file no analyzer supports: the serial scan reports it with
an `UNSUPPORTED_LANGUAGE` finding, the parallel scan's pre-enumeration
filter drops it. -/
def unsupportedWitnessEntry : DirEntry :=
  { path := "script.xyz", isRegularFile := true, supported := false,
    behavior := FileBehavior.ok [] }

/-- Counterexample to C6 as stated: on a directory holding one regular
file of an unsupported type, the serial scan returns a map binding the
file to its `UNSUPPORTED_LANGUAGE` finding while the parallel scan
returns the empty map, so the two result maps differ. -/
theorem parallel_serial_differ_counterexample :
    lookupRes (analyzeDirectoryM [unsupportedWitnessEntry] none) "script.xyz" ≠
      lookupRes (analyzeDirectoryParallelM [unsupportedWitnessEntry] none) "script.xyz" := by
  decide

/-- C6 (amended): on directories whose regular files are all supported
by some analyzer and all analyze without raising, and with no
cancellation, the parallel scan produces exactly the serial scan's
result map.  (As stated the claim fails: the parallel variant
pre-filters unsupported files that the serial variant reports as
`UNSUPPORTED_LANGUAGE` — see the counterexample — and its worker catches
every per-file exception, recoverable or not, by setting the shared
fail-fast flag.) -/
theorem parallel_matches_serial_on_clean_trees (entries : List DirEntry)
    (h : ∀ e ∈ entries, e.isRegularFile = true →
      e.supported = true ∧ ∃ rs, e.behavior = FileBehavior.ok rs) :
    analyzeDirectoryParallelM entries none = analyzeDirectoryM entries none := by
  suffices hgen : ∀ (es : List DirEntry) (i j : Nat)
      (acc : List (String × List AnalysisResult)),
      (∀ e ∈ es, e.isRegularFile = true →
        e.supported = true ∧ ∃ rs, e.behavior = FileBehavior.ok rs) →
      parallelGo none (es.filter fun e => e.isRegularFile && e.supported) j acc =
        analyzeDirectoryGo none es i acc by
    exact hgen entries 0 0 [] h
  intro es
  induction es with
  | nil => intro i j acc _; rfl
  | cons e es ih =>
    intro i j acc hh
    have htail : ∀ x ∈ es, x.isRegularFile = true →
        x.supported = true ∧ ∃ rs, x.behavior = FileBehavior.ok rs :=
      fun x hx => hh x (List.mem_cons_of_mem e hx)
    by_cases hreg : e.isRegularFile = true
    · rcases hh e (List.mem_cons_self e es) hreg with ⟨hsup, rs, hb⟩
      have hfil : (e :: es).filter (fun x => x.isRegularFile && x.supported) =
          e :: es.filter fun x => x.isRegularFile && x.supported :=
        List.filter_cons_of_pos (by rw [hreg, hsup]; rfl)
      rw [hfil]
      show parallelGo none (e :: _) j acc = _
      simp only [parallelGo, analyzeDirectoryGo, cancelledAt]
      simp only [analyzeFileM, hsup, hb, hreg]
      simp only [Bool.not_true, if_false, if_true]
      exact ih (i + 1) (j + 1) _ htail
    · have hreg' : e.isRegularFile = false := by simpa using hreg
      have hfil : (e :: es).filter (fun x => x.isRegularFile && x.supported) =
          es.filter fun x => x.isRegularFile && x.supported :=
        List.filter_cons_of_neg (by simp [hreg'])
      rw [hfil]
      show _ = analyzeDirectoryGo none (e :: es) i acc
      simp only [analyzeDirectoryGo, cancelledAt, hreg', Bool.false_eq_true, if_false]
      exact ih (i + 1) j acc htail

/-- Directory for the amended C6 witness. -/
def cleanWitnessEntries : List DirEntry :=
  [{ path := "a.cpp", isRegularFile := true, supported := true,
     behavior := FileBehavior.ok [smellFinding] },
   { path := "sub", isRegularFile := false, supported := false,
     behavior := FileBehavior.ok [] }]

/-- Witness for the amended C6 at concrete inputs. -/
theorem parallel_matches_serial_on_clean_trees_witness :
    analyzeDirectoryParallelM cleanWitnessEntries none =
      analyzeDirectoryM cleanWitnessEntries none := by
  refine parallel_matches_serial_on_clean_trees cleanWitnessEntries ?_
  intro e he
  rcases List.mem_cons.mp he with rfl | he
  · intro _
    exact ⟨rfl, [smellFinding], rfl⟩
  · rcases List.mem_cons.mp he with rfl | he
    · intro hre
      exact absurd hre (by decide)
    · exact absurd he (List.not_mem_nil e)


/-! ## Claim C5: recoverable per-file errors are isolated -/

/-- `isEmpty` of a provably non-empty list. -/
theorem isEmpty_false_of_ne_nil {α : Type} (l : List α) (h : l ≠ []) :
    l.isEmpty = false := by
  cases l with
  | nil => exact absurd rfl h
  | cons a l => rfl

/-- A path bound by neither the accumulator nor any remaining entry is
absent from the final map. -/
theorem analyzeDirectoryGo_lookup_absent (cancelAt : Option Nat) (p : String) :
    ∀ (es : List DirEntry) (i : Nat) (acc : List (String × List AnalysisResult)),
      p ∉ acc.map (fun x => x.1) →
      p ∉ es.map (fun e => e.path) →
      lookupRes (analyzeDirectoryGo cancelAt es i acc) p = none := by
  intro es
  induction es with
  | nil => intro i acc hacc _; exact lookupRes_of_not_mem_keys acc p hacc
  | cons e es ih =>
    intro i acc hacc hes
    have hpe : p ≠ e.path := by
      intro h
      apply hes
      rw [List.map_cons, h]
      exact List.mem_cons_self _ _
    have hpes : p ∉ es.map fun x => x.path := by
      intro h
      exact hes (by rw [List.map_cons]; exact List.mem_cons_of_mem _ h)
    simp only [analyzeDirectoryGo]
    split
    · exact lookupRes_of_not_mem_keys acc p hacc
    · split
      · split
        · rename_i rs heq
          refine ih (i + 1) _ ?_ hpes
          split
          · exact hacc
          · intro hmem
            rcases keys_insertResult _ _ _ hmem with h | h
            · exact hpe h
            · exact hacc h
        · exact ih (i + 1) acc hacc hpes
        · exact ih (i + 1) acc hacc hpes
        · exact lookupRes_of_not_mem_keys acc p hacc
      · exact ih (i + 1) acc hacc hpes

/-- In a tree with pairwise distinct paths, a supported regular file
whose analysis raises a recoverable exception never appears in the
serial scan's result map; the scan continues past it. -/
theorem analyzeDirectoryGo_excludes (cancelAt : Option Nat) :
    ∀ (es : List DirEntry) (i : Nat) (acc : List (String × List AnalysisResult))
      (e0 : DirEntry),
      (es.map fun e => e.path).Nodup →
      e0.path ∉ acc.map (fun x => x.1) →
      e0 ∈ es → e0.isRegularFile = true → e0.supported = true →
      e0.behavior.recoverableRaise →
      lookupRes (analyzeDirectoryGo cancelAt es i acc) e0.path = none := by
  intro es
  induction es with
  | nil => intro i acc e0 _ _ h0; exact absurd h0 (List.not_mem_nil e0)
  | cons e es ih =>
    intro i acc e0 hnodup hacc hmem hreg hsup hrec
    have hcons := List.nodup_cons.mp (by simpa only [List.map_cons] using hnodup)
    have hhead : e.path ∉ es.map fun x => x.path := hcons.1
    have hnodup' : (es.map fun x => x.path).Nodup := hcons.2
    simp only [analyzeDirectoryGo]
    split
    · exact lookupRes_of_not_mem_keys acc _ hacc
    · rename_i hcan
      have hcan' : cancelledAt cancelAt i = false := by simpa using hcan
      rcases List.mem_cons.mp hmem with rfl | hmem'
      · -- the failing file is the head entry
        rw [if_pos hreg]
        split
        · rename_i rs heq
          exfalso
          rw [hcan'] at heq
          cases hb : e0.behavior with
          | ok l => rw [hb] at hrec; simp [FileBehavior.recoverableRaise] at hrec
          | raisesFileSystem m => simp [analyzeFileM, hsup, hb] at heq
          | raisesAnalysis m => simp [analyzeFileM, hsup, hb] at heq
          | raisesOther m => rw [hb] at hrec; simp [FileBehavior.recoverableRaise] at hrec
        · exact analyzeDirectoryGo_lookup_absent cancelAt e0.path es (i + 1) acc hacc hhead
        · exact analyzeDirectoryGo_lookup_absent cancelAt e0.path es (i + 1) acc hacc hhead
        · rename_i ex heq
          exfalso
          rw [hcan'] at heq
          cases hb : e0.behavior with
          | ok l => rw [hb] at hrec; simp [FileBehavior.recoverableRaise] at hrec
          | raisesFileSystem m => simp [analyzeFileM, hsup, hb] at heq
          | raisesAnalysis m => simp [analyzeFileM, hsup, hb] at heq
          | raisesOther m => rw [hb] at hrec; simp [FileBehavior.recoverableRaise] at hrec
      · -- the failing file is further down
        have hne : e0.path ≠ e.path := by
          intro h
          exact hhead (h ▸ List.mem_map_of_mem _ hmem')
        split
        · split
          · rename_i rs heq
            refine ih (i + 1) _ e0 hnodup' ?_ hmem' hreg hsup hrec
            split
            · exact hacc
            · intro hk
              rcases keys_insertResult _ _ _ hk with h | h
              · exact hne h
              · exact hacc h
          · exact ih (i + 1) acc e0 hnodup' hacc hmem' hreg hsup hrec
          · exact ih (i + 1) acc e0 hnodup' hacc hmem' hreg hsup hrec
          · exact lookupRes_of_not_mem_keys acc _ hacc
        · exact ih (i + 1) acc e0 hnodup' hacc hmem' hreg hsup hrec

/-- C5: a supported regular file whose individual analysis raises a
recoverable error (a filesystem or analysis exception) is excluded from
`analyzeDirectory`'s result map while the scan continues; in particular,
a directory with one such unreadable file followed by two valid files
yields exactly the two valid files' results. -/
theorem recoverable_file_errors_isolated
    (entries : List DirEntry) (cancelAt : Option Nat) (e0 : DirEntry)
    (p0 p1 p2 m : String) (rs1 rs2 : List AnalysisResult)
    (hnodup : (entries.map fun e => e.path).Nodup)
    (hmem : e0 ∈ entries) (hreg : e0.isRegularFile = true)
    (hsup : e0.supported = true) (hrec : e0.behavior.recoverableRaise)
    (hp12 : p1 ≠ p2)
    (hrs1 : rs1 ≠ []) (hrs2 : rs2 ≠ []) :
    lookupRes (analyzeDirectoryM entries cancelAt) e0.path = none ∧
    analyzeDirectoryM
        [{ path := p0, isRegularFile := true, supported := true,
           behavior := FileBehavior.raisesFileSystem m },
         { path := p1, isRegularFile := true, supported := true,
           behavior := FileBehavior.ok rs1 },
         { path := p2, isRegularFile := true, supported := true,
           behavior := FileBehavior.ok rs2 }] none
      = [(p1, rs1), (p2, rs2)] := by
  constructor
  · exact analyzeDirectoryGo_excludes cancelAt entries 0 [] e0 hnodup
      (by simp) hmem hreg hsup hrec
  · have h1 : rs1.isEmpty = false := isEmpty_false_of_ne_nil rs1 hrs1
    have h2 : rs2.isEmpty = false := isEmpty_false_of_ne_nil rs2 hrs2
    have h12 : (p1 == p2) = false := by
      simp only [beq_eq_false_iff_ne, ne_eq]
      exact hp12
    simp only [analyzeDirectoryM, analyzeDirectoryGo, cancelledAt, analyzeFileM,
      Bool.not_true, Bool.false_eq_true, if_false, if_true, h1, h2]
    simp [insertResult, h12]

/-- A recoverably failing entry for the C5 witness. -/
def badWitnessEntry : DirEntry :=
  { path := "bad.cpp", isRegularFile := true, supported := true,
    behavior := FileBehavior.raisesFileSystem "Cannot open file" }

/-- Witness for C5 at concrete inputs: the failing file is excluded and
the two valid files are analysed. -/
theorem recoverable_file_errors_isolated_witness :
    lookupRes (analyzeDirectoryM [badWitnessEntry,
        { path := "g1.cpp", isRegularFile := true, supported := true,
          behavior := FileBehavior.ok [smellFinding] },
        { path := "g2.cpp", isRegularFile := true, supported := true,
          behavior := FileBehavior.ok [smellFinding] }] none) "bad.cpp" = none ∧
    analyzeDirectoryM
        [{ path := "bad.cpp", isRegularFile := true, supported := true,
           behavior := FileBehavior.raisesFileSystem "Cannot open file" },
         { path := "g1.cpp", isRegularFile := true, supported := true,
           behavior := FileBehavior.ok [smellFinding] },
         { path := "g2.cpp", isRegularFile := true, supported := true,
           behavior := FileBehavior.ok [smellFinding] }] none
      = [("g1.cpp", [smellFinding]), ("g2.cpp", [smellFinding])] := by
  exact recoverable_file_errors_isolated
    [badWitnessEntry,
      { path := "g1.cpp", isRegularFile := true, supported := true,
        behavior := FileBehavior.ok [smellFinding] },
      { path := "g2.cpp", isRegularFile := true, supported := true,
        behavior := FileBehavior.ok [smellFinding] }] none badWitnessEntry
    "bad.cpp" "g1.cpp" "g2.cpp" "Cannot open file" [smellFinding] [smellFinding]
    (by decide) (List.mem_cons_self _ _) rfl rfl trivial (by decide)
    (by decide) (by decide)


/-! ## Claim C7: cancellation returns the accumulated partial map -/

/-- A scan cancelled before iteration `n` behaves exactly like an
uncancelled scan of the first `n - i` remaining entries: the partial map
accumulated up to the cancellation checkpoint is returned normally. -/
theorem analyzeDirectoryGo_cancel_take (n : Nat) :
    ∀ (es : List DirEntry) (i : Nat) (acc : List (String × List AnalysisResult)),
      analyzeDirectoryGo (some n) es i acc =
        analyzeDirectoryGo none (es.take (n - i)) i acc := by
  intro es
  induction es with
  | nil =>
    intro i acc
    rw [List.take_nil]
    rfl
  | cons e es ih =>
    intro i acc
    by_cases hni : n ≤ i
    · have h0 : n - i = 0 := Nat.sub_eq_zero_of_le hni
      rw [h0, List.take_zero]
      have hc : cancelledAt (some n) i = true := by
        simp only [cancelledAt, decide_eq_true_eq]
        exact hni
      simp only [analyzeDirectoryGo, hc, if_true]
    · have hlt : i < n := by omega
      have hsub : n - i = (n - (i + 1)) + 1 := by omega
      rw [hsub, List.take_succ_cons]
      have hc1 : cancelledAt (some n) i = false := by
        simp only [cancelledAt, decide_eq_false_iff_not]
        omega
      have hc2 : cancelledAt none i = false := rfl
      simp only [analyzeDirectoryGo, hc1, hc2, Bool.false_eq_true, if_false]
      by_cases hre : e.isRegularFile = true
      · rw [if_pos hre, if_pos hre]
        rcases hfa : analyzeFileM false e with exn | rs
        · cases exn with
          | fileSystem m => exact ih (i + 1) acc
          | analysisExn m => exact ih (i + 1) acc
          | otherExn m => rfl
        · exact ih (i + 1) _
      · rw [if_neg hre, if_neg hre]
        exact ih (i + 1) acc

/-- Scanning further entries never disturbs an existing binding whose
path does not reappear. -/
theorem analyzeDirectoryGo_preserves_binding (p : String) (rs : List AnalysisResult) :
    ∀ (es : List DirEntry) (i : Nat) (acc : List (String × List AnalysisResult)),
      p ∉ es.map (fun e => e.path) →
      lookupRes acc p = some rs →
      lookupRes (analyzeDirectoryGo none es i acc) p = some rs := by
  intro es
  induction es with
  | nil => intro i acc _ hacc; exact hacc
  | cons e es ih =>
    intro i acc hes hacc
    have hpe : e.path ≠ p := by
      intro h
      apply hes
      rw [List.map_cons, ← h]
      exact List.mem_cons_self _ _
    have hpes : p ∉ es.map fun x => x.path := by
      intro h
      exact hes (by rw [List.map_cons]; exact List.mem_cons_of_mem _ h)
    simp only [analyzeDirectoryGo]
    have hc : cancelledAt none i = false := rfl
    simp only [hc, Bool.false_eq_true, if_false]
    by_cases hre : e.isRegularFile = true
    · rw [if_pos hre]
      rcases hfa : analyzeFileM false e with exn | rs'
      · cases exn with
        | fileSystem m => exact ih (i + 1) acc hpes hacc
        | analysisExn m => exact ih (i + 1) acc hpes hacc
        | otherExn m => exact hacc
      · refine ih (i + 1) _ hpes ?_
        split
        · exact hacc
        · rw [lookupRes_insertResult_ne acc p e.path rs' hpe]
          exact hacc
    · rw [if_neg hre]
      exact ih (i + 1) acc hpes hacc

/-- With pairwise distinct paths, every binding produced by scanning a
prefix of the tree survives in the scan of the whole tree. -/
theorem analyzeDirectoryGo_prefix_binding (p : String) (rs : List AnalysisResult) :
    ∀ (es1 es2 : List DirEntry) (i : Nat) (acc : List (String × List AnalysisResult)),
      ((es1 ++ es2).map fun e => e.path).Nodup →
      (∀ q ∈ acc.map (fun x => x.1), q ∉ (es1 ++ es2).map fun e => e.path) →
      lookupRes (analyzeDirectoryGo none es1 i acc) p = some rs →
      lookupRes (analyzeDirectoryGo none (es1 ++ es2) i acc) p = some rs := by
  intro es1
  induction es1 with
  | nil =>
    intro es2 i acc _ hdisj hfound
    have hacc : lookupRes acc p = some rs := hfound
    have hp : p ∉ es2.map fun e => e.path :=
      hdisj p (lookupRes_mem_keys acc p rs hacc)
    exact analyzeDirectoryGo_preserves_binding p rs es2 i acc hp hacc
  | cons e es1 ih =>
    intro es2 i acc hnodup hdisj hfound
    have hcons := List.nodup_cons.mp (by simpa only [List.cons_append, List.map_cons]
      using hnodup)
    have hhead : e.path ∉ (es1 ++ es2).map fun x => x.path := hcons.1
    have hnodup' : ((es1 ++ es2).map fun x => x.path).Nodup := hcons.2
    have hdisj' : ∀ q ∈ acc.map (fun x => x.1), q ∉ (es1 ++ es2).map fun x => x.path := by
      intro q hq
      have := hdisj q hq
      intro hqin
      exact this (by rw [List.cons_append, List.map_cons]; exact List.mem_cons_of_mem _ hqin)
    rw [List.cons_append]
    have hc : cancelledAt none i = false := rfl
    simp only [analyzeDirectoryGo, hc, Bool.false_eq_true, if_false] at hfound ⊢
    by_cases hre : e.isRegularFile = true
    · rw [if_pos hre] at hfound ⊢
      rcases hfa : analyzeFileM false e with exn | rs'
      · rw [hfa] at hfound
        cases exn with
        | fileSystem m => exact ih es2 (i + 1) acc hnodup' hdisj' hfound
        | analysisExn m => exact ih es2 (i + 1) acc hnodup' hdisj' hfound
        | otherExn m => exact hfound
      · rw [hfa] at hfound
        refine ih es2 (i + 1) _ hnodup' ?_ hfound
        intro q hq
        split at hq
        · exact hdisj' q hq
        · rcases keys_insertResult _ _ _ hq with h | h
          · rw [h]
            exact hhead
          · exact hdisj' q h
    · rw [if_neg hre] at hfound ⊢
      exact ih es2 (i + 1) acc hnodup' hdisj' hfound

/-- C7: a scan cancelled before iteration `n` returns, normally, exactly
the partial map of the first `n` entries, and with pairwise distinct
paths every binding of that partial map also appears in the full
uncancelled scan's map (the partial map is a sub-map of the full one). -/
theorem cancellation_returns_partial_map (entries : List DirEntry) (n : Nat)
    (p : String) (rs : List AnalysisResult)
    (hnodup : (entries.map fun e => e.path).Nodup)
    (hfound : lookupRes (analyzeDirectoryM entries (some n)) p = some rs) :
    analyzeDirectoryM entries (some n) = analyzeDirectoryM (entries.take n) none ∧
    lookupRes (analyzeDirectoryM entries none) p = some rs := by
  have htake : analyzeDirectoryM entries (some n) =
      analyzeDirectoryM (entries.take n) none := by
    unfold analyzeDirectoryM
    have := analyzeDirectoryGo_cancel_take n entries 0 []
    rwa [Nat.sub_zero] at this
  refine ⟨htake, ?_⟩
  rw [htake] at hfound
  have hsplit : entries.take n ++ entries.drop n = entries := List.take_append_drop n entries
  have hres := analyzeDirectoryGo_prefix_binding p rs (entries.take n) (entries.drop n)
    0 [] (by rw [hsplit]; exact hnodup) (by intro q hq; exact absurd hq (by simp))
    hfound
  rw [hsplit] at hres
  exact hres

/-- Directory for the C7 witness: cancellation after one entry. -/
def cancelWitnessEntries : List DirEntry :=
  [{ path := "a.cpp", isRegularFile := true, supported := true,
     behavior := FileBehavior.ok [smellFinding] },
   { path := "g1.cpp", isRegularFile := true, supported := true,
     behavior := FileBehavior.ok [smellFinding] }]

/-- Witness for C7 at concrete inputs. -/
theorem cancellation_returns_partial_map_witness :
    analyzeDirectoryM cancelWitnessEntries (some 1) =
      analyzeDirectoryM (cancelWitnessEntries.take 1) none ∧
    lookupRes (analyzeDirectoryM cancelWitnessEntries none) "a.cpp"
      = some [smellFinding] := by
  exact cancellation_returns_partial_map cancelWitnessEntries 1 "a.cpp" [smellFinding]
    (by decide) (by decide)


/-! ## CppAnalyzer (`cpp_analyzer.h`)

Embedding notes: every `std::regex` the analyzer builds is either a
literal string (with `\x28` meaning a literal parenthesis escaped in the
pattern), a case-insensitive literal, or `A.*B` for literals `A`, `B`;
they are embedded with exactly those semantics on one line of text.
`line.find(x) != 0` is "does not start with `x`", `line.find(x) == npos`
is "does not contain `x`". -/

/-- `isspace` of the C locale. -/
def charIsSpace (c : Char) : Bool :=
  c == ' ' || c == '\t' || c == '\n' || c == Char.ofNat 11 || c == Char.ofNat 12 ||
    c == '\r'

/-- Is `pat` a prefix of `s` (character lists)? -/
def isPrefixChars : List Char → List Char → Bool
  | [], _ => true
  | _ :: _, [] => false
  | a :: as, b :: bs => a == b && isPrefixChars as bs

/-- Does `s` contain `pat` as a contiguous substring (character lists)? -/
def containsChars (pat : List Char) : List Char → Bool
  | [] => isPrefixChars pat []
  | c :: cs => isPrefixChars pat (c :: cs) || containsChars pat cs

/-- `s.find(pat) != npos`, and `regex_search` for a literal pattern. -/
def strContains (s pat : String) : Bool := containsChars pat.toList s.toList

/-- `s.find(pat) == 0`. -/
def strStartsWith (s pat : String) : Bool := isPrefixChars pat.toList s.toList

/-- `regex_search` for a literal pattern compiled with `icase` (ASCII). -/
def strContainsInsensitive (s pat : String) : Bool :=
  containsChars (pat.toList.map Char.toLower) (s.toList.map Char.toLower)

/-- `regex_search` for `A.*B`: an occurrence of `A` followed, at or
after its end, by an occurrence of `B`. -/
def containsThenChars (p1 p2 : List Char) : List Char → Bool
  | [] => isPrefixChars p1 [] && containsChars p2 []
  | c :: cs =>
    (isPrefixChars p1 (c :: cs) && containsChars p2 (List.drop p1.length (c :: cs)))
      || containsThenChars p1 p2 cs

/-- `regex_search` for `A.*B` on a string. -/
def strContainsThen (s a b : String) : Bool := containsThenChars a.toList b.toList s.toList

/-- `std::getline` splitting as used by `analyzeCode` and
`checkSecurityPatterns`: lines are separated by a newline character, a
trailing newline does not open a final empty line, an empty stream has
no lines. -/
def linesAux : List Char → List Char → List String
  | [], cur => if cur.isEmpty then [] else [String.mk cur.reverse]
  | c :: cs, cur =>
    if c == '\n' then String.mk cur.reverse :: linesAux cs []
    else linesAux cs (c :: cur)

/-- The lines of a source text. -/
def linesOf (s : String) : List String := linesAux s.toList []

/-- The missing-semicolon heuristic of `CppAnalyzer::checkLine`
(`cpp_analyzer.h` lines 190-207), with both of its nested conditions. -/
def missingSemicolonCheck (line : String) : Bool :=
  !(line == "") &&
  !(strContains line "\x7b") && !(strContains line "\x7d") &&
  !(strStartsWith line "#") && !(strStartsWith line "//") &&
  (match line.toList.getLast? with
   | some c => !(c == ';') && !(c == Char.ofNat 123)
   | none => false) &&
  !(line.toList.all charIsSpace) &&
  !(strStartsWith line "if ") && !(strStartsWith line "for ") &&
  !(strStartsWith line "while ") && !(strStartsWith line "switch ") &&
  !(strStartsWith line "namespace ") && !(strStartsWith line "class ") &&
  !(strStartsWith line "struct ") && !(strStartsWith line "enum ")

/-- `error_patterns_` (`cpp_analyzer.h` lines 151-156): four literal
regexes, the first case-insensitive. -/
def errorPatterns : List (String → Bool) :=
  [fun l => strContainsInsensitive l "undefined reference to",
   fun l => strContains l "expected ';' after",
   fun l => strContains l "use of undeclared identifier",
   fun l => strContains l "no matching function for call"]

/-- `warning_patterns_` (`cpp_analyzer.h` lines 158-162). -/
def warningPatterns : List (String → Bool) :=
  [fun l => strContainsInsensitive l "unused variable",
   fun l => strContains l "comparison between signed and unsigned",
   fun l => strContains l "deprecated declaration"]

/-- `security_patterns_` (`cpp_analyzer.h` lines 165-184): ten literal
function-call patterns (each `\x28` in the regex is a literal opening
parenthesis) and four SQL patterns, two of which use `.*`. -/
def securityPatterns : List (String → Bool) :=
  [fun l => strContains l "strcpy(",
   fun l => strContains l "strcat(",
   fun l => strContains l "sprintf(",
   fun l => strContains l "vsprintf(",
   fun l => strContains l "gets(",
   fun l => strContains l "printf(",
   fun l => strContains l "fprintf(",
   fun l => strContains l "system(",
   fun l => strContains l "exec(",
   fun l => strContains l "popen(",
   fun l => strContainsThen l "SELECT" "FROM",
   fun l => strContains l "INSERT INTO",
   fun l => strContainsThen l "UPDATE" "SET",
   fun l => strContains l "DELETE FROM"]

/-- `CppAnalyzer::checkLine` (`cpp_analyzer.h` lines 187-226): one
finding per matching pattern, all at this line's number. -/
def checkLineM (line : String) (line_number : Nat) (file_name : String) :
    List AnalysisResult :=
  (if missingSemicolonCheck line then
    [{ file_path := file_name, rule_id := "MISSING_SEMICOLON",
       message := "Possible missing semicolon", severity := "WARNING",
       line_number := line_number }]
   else []) ++
  (errorPatterns.filterMap fun pat =>
    if pat line then
      some { file_path := file_name, rule_id := "SYNTAX_ERROR",
             message := "Potential syntax issue detected", severity := "ERROR",
             line_number := line_number }
    else none) ++
  (warningPatterns.filterMap fun pat =>
    if pat line then
      some { file_path := file_name, rule_id := "CODE_SMELL",
             message := "Code quality issue", severity := "WARNING",
             line_number := line_number }
    else none)

/-- One line of `CppAnalyzer::checkSecurityPatterns`
(`cpp_analyzer.h` lines 271-280). -/
def securityLineM (line : String) (line_number : Nat) (file_name : String) :
    List AnalysisResult :=
  securityPatterns.filterMap fun pat =>
    if pat line then
      some { file_path := file_name, rule_id := "SECURITY_VULNERABILITY",
             message := "Potential security vulnerability detected",
             severity := "CRITICAL", line_number := line_number }
    else none

/-- A per-line scanning pass: the counter is incremented before each
line is checked, so the first line is line 1. -/
def scanFrom (perLine : String → Nat → List AnalysisResult) :
    Nat → List String → List AnalysisResult
  | _, [] => []
  | n, l :: ls => perLine l (n + 1) ++ scanFrom perLine (n + 1) ls

/-- `CppAnalyzer::checkIncludeGuard` (`cpp_analyzer.h` lines 239-246):
an unnumbered (line 0) finding. -/
def checkIncludeGuardM (code file_name : String) : List AnalysisResult :=
  if !(strContains code "#ifndef") || !(strContains code "#define") then
    [{ file_path := file_name, rule_id := "INCLUDE_GUARD_MISSING",
       message := "Header file missing include guard", severity := "WARNING",
       line_number := 0 }]
  else []

/-- `CppAnalyzer::checkModernCpp` (`cpp_analyzer.h` lines 248-263):
unnumbered (line 0) findings. -/
def checkModernCppM (code file_name : String) : List AnalysisResult :=
  (if strContains code "malloc(" || strContains code "free(" then
    [{ file_path := file_name, rule_id := "USE_MODERN_MEMORY",
       message := "Consider using new/delete or smart pointers instead of malloc/free",
       severity := "INFO", line_number := 0 }]
   else []) ++
  (if strContains code "printf(" then
    [{ file_path := file_name, rule_id := "USE_IOSTREAMS",
       message := "Consider using iostreams instead of printf",
       severity := "INFO", line_number := 0 }]
   else [])

/-- `CppAnalyzer::checkAdvancedPatterns` (`cpp_analyzer.h` lines
228-237): include-guard check for files whose name contains `.h`, then
the modern-C++ suggestions. -/
def checkAdvancedPatternsM (code file_name : String) : List AnalysisResult :=
  (if strContains file_name ".h" then checkIncludeGuardM code file_name else []) ++
  checkModernCppM code file_name

/-- `CppAnalyzer::analyzeCode` (`cpp_analyzer.h` lines 67-84): the
per-line pass, then the whole-file advanced checks, then the security
pass, which re-scans the lines from line 1. -/
def cppAnalyzeCode (code file_name : String) : List AnalysisResult :=
  scanFrom (fun l n => checkLineM l n file_name) 0 (linesOf code) ++
  checkAdvancedPatternsM code file_name ++
  scanFrom (fun l n => securityLineM l n file_name) 0 (linesOf code)

/-- Non-decreasing line numbers over a findings list. -/
def LineOrdered (rs : List AnalysisResult) : Prop :=
  List.Chain' (· ≤ ·) (rs.map fun r => r.line_number)


/-! ## Claim C9: line order within one file's findings -/

/-- Counterexample to C9 as stated: on the two-line file
`strcpy(a,b)` / `int x = 1`, `analyzeCode` emits the per-line findings
(missing semicolons at lines 1 and 2) and then the security pass's
finding back at line 1, so the returned list's line numbers `[1, 2, 1]`
are not non-decreasing. -/
theorem line_order_counterexample :
    ¬ LineOrdered (cppAnalyzeCode "strcpy(a,b)\nint x = 1" "a.cpp") := by
  unfold LineOrdered
  have hmap : (cppAnalyzeCode "strcpy(a,b)\nint x = 1" "a.cpp").map
      (fun r => r.line_number) = [1, 2, 1] := by decide
  rw [hmap]
  simp [List.chain'_cons]

/-- Every finding `checkLine` emits carries the checked line's number. -/
theorem checkLineM_line_number (l : String) (n : Nat) (f : String) :
    ∀ r ∈ checkLineM l n f, r.line_number = n := by
  intro r hr
  unfold checkLineM at hr
  rcases List.mem_append.mp hr with hr | hr
  · rcases List.mem_append.mp hr with hr | hr
    · split at hr
      · rw [List.mem_singleton.mp hr]
      · exact absurd hr (List.not_mem_nil r)
    · rcases List.mem_filterMap.mp hr with ⟨pat, _, hpat⟩
      split at hpat
      · injection hpat with h
        rw [← h]
      · exact Option.noConfusion hpat
  · rcases List.mem_filterMap.mp hr with ⟨pat, _, hpat⟩
    split at hpat
    · injection hpat with h
      rw [← h]
    · exact Option.noConfusion hpat

/-- Every finding the security pass emits carries the checked line's
number. -/
theorem securityLineM_line_number (l : String) (n : Nat) (f : String) :
    ∀ r ∈ securityLineM l n f, r.line_number = n := by
  intro r hr
  unfold securityLineM at hr
  rcases List.mem_filterMap.mp hr with ⟨pat, _, hpat⟩
  split at hpat
  · injection hpat with h
    rw [← h]
  · exact Option.noConfusion hpat

/-- Findings emitted after position `n` of a pass have line numbers
above `n`. -/
theorem scanFrom_line_lb (perLine : String → Nat → List AnalysisResult)
    (hp : ∀ l n r, r ∈ perLine l n → r.line_number = n) :
    ∀ (ls : List String) (n : Nat) (r : AnalysisResult),
      r ∈ scanFrom perLine n ls → n + 1 ≤ r.line_number := by
  intro ls
  induction ls with
  | nil => intro n r hr; exact absurd hr (List.not_mem_nil r)
  | cons l ls ih =>
    intro n r hr
    rcases List.mem_append.mp hr with hr | hr
    · rw [hp l (n + 1) r hr]
    · have := ih (n + 1) r hr
      omega

/-- A constant list of naturals is pairwise `≤`. -/
theorem pairwise_le_of_const {l : List Nat} {c : Nat} (h : ∀ x ∈ l, x = c) :
    List.Pairwise (· ≤ ·) l := by
  induction l with
  | nil => exact List.Pairwise.nil
  | cons a l ih =>
    refine List.Pairwise.cons ?_ (ih fun x hx => h x (List.mem_cons_of_mem a hx))
    intro b hb
    rw [h a (List.mem_cons_self a l), h b (List.mem_cons_of_mem a hb)]

/-- A single scanning pass emits its findings with pairwise
non-decreasing line numbers. -/
theorem scanFrom_pairwise (perLine : String → Nat → List AnalysisResult)
    (hp : ∀ l n r, r ∈ perLine l n → r.line_number = n) :
    ∀ (ls : List String) (n : Nat),
      List.Pairwise (· ≤ ·) ((scanFrom perLine n ls).map fun r => r.line_number) := by
  intro ls
  induction ls with
  | nil => intro n; exact List.Pairwise.nil
  | cons l ls ih =>
    intro n
    show List.Pairwise (· ≤ ·)
      ((perLine l (n + 1) ++ scanFrom perLine (n + 1) ls).map fun r => r.line_number)
    rw [List.map_append, List.pairwise_append]
    refine ⟨?_, ih (n + 1), ?_⟩
    · refine pairwise_le_of_const (c := n + 1) ?_
      intro x hx
      rcases List.mem_map.mp hx with ⟨r, hr, hxr⟩
      rw [← hxr, hp l (n + 1) r hr]
    · intro a ha b hb
      rcases List.mem_map.mp ha with ⟨r, hr, har⟩
      rcases List.mem_map.mp hb with ⟨r2, hr2, hbr⟩
      rw [← har, ← hbr, hp l (n + 1) r hr]
      have := scanFrom_line_lb perLine hp ls (n + 1) r2 hr2
      omega

/-- C9 (amended): `CppAnalyzer::analyzeCode` returns the concatenation
of three passes — the per-line checks, the unnumbered (line 0)
whole-file advanced checks, and the security pass that restarts at
line 1 — and each of the two per-line passes emits its findings in
non-decreasing line order, but the concatenated list as a whole need not
be non-decreasing (see the counterexample). -/
theorem line_order_within_each_pass (code file_name : String) :
    cppAnalyzeCode code file_name =
      scanFrom (fun l n => checkLineM l n file_name) 0 (linesOf code) ++
      checkAdvancedPatternsM code file_name ++
      scanFrom (fun l n => securityLineM l n file_name) 0 (linesOf code) ∧
    LineOrdered (scanFrom (fun l n => checkLineM l n file_name) 0 (linesOf code)) ∧
    LineOrdered (scanFrom (fun l n => securityLineM l n file_name) 0 (linesOf code)) := by
  refine ⟨rfl, ?_, ?_⟩
  · exact (scanFrom_pairwise _ (fun l n r hr => checkLineM_line_number l n file_name r hr)
      (linesOf code) 0).chain'
  · exact (scanFrom_pairwise _ (fun l n r hr => securityLineM_line_number l n file_name r hr)
      (linesOf code) 0).chain'

end HyperZilla
